import Mathlib

set_option maxHeartbeats 1600000

/-!
Verification of the asset pipeline of model-viewer-rs.

Shallow embedding conventions:
  byte streams are lists of natural numbers (byte values); a read that would
  run past the end of a slice, which panics in the Rust source, is modelled
  as returning none; machine integers are modelled as Int (for the i32 and
  i16 locals of the source) or Nat (for unsigned values), with explicit
  reductions modulo a power of two wherever the source performs an `as`
  cast whose operand might be out of range.
-/

/-- Packet.g1 (src/runetek5/io/packet.rs): read one unsigned byte. -/
def g1 : List Nat → Option (Nat × List Nat)
  | [] => none
  | b :: rest => some (b, rest)

/-- Packet.g2 (src/runetek5/io/packet.rs): read a big-endian unsigned
16-bit value. -/
def g2 (buf : List Nat) : Option (Nat × List Nat) := do
  let (b0, buf) ← g1 buf
  let (b1, buf) ← g1 buf
  pure (b0 * 256 + b1, buf)

/-- Packet.g4 (src/runetek5/io/packet.rs): read a big-endian unsigned
32-bit value. -/
def g4 (buf : List Nat) : Option (Nat × List Nat) := do
  let (b0, buf) ← g2 buf
  let (b1, buf) ← g2 buf
  pure (b0 * 65536 + b1, buf)

/-- Reinterpretation of an unsigned 32-bit value as a signed i32. -/
def i32ofU32 (v : Nat) : Int := if v < 2 ^ 31 then (v : Int) else (v : Int) - 2 ^ 32

/-- Packet.g4s (src/runetek5/io/packet.rs): read a big-endian signed
32-bit value. -/
def g4s (buf : List Nat) : Option (Int × List Nat) := do
  let (v, buf) ← g4 buf
  pure (i32ofU32 v, buf)

/-- Packet.get_smart_1_or_2s (src/runetek5/io/packet.rs): if the next byte
is below 128, read one byte and subtract 64; otherwise read a big-endian
16-bit value and subtract 49152. -/
def getSmart1or2s (buf : List Nat) : Option (Int × List Nat) := do
  let b ← buf.head?
  if b < 128 then
    let (v, buf) ← g1 buf
    pure ((v : Int) - 64, buf)
  else
    let (v, buf) ← g2 buf
    pure ((v : Int) - 49152, buf)

/-- Packet.get_smart_2_or_4 (src/runetek5/io/packet.rs): if the top bit of
the next byte is set, read four bytes and clear bit 31; otherwise read a
big-endian 16-bit value. -/
def getSmart2or4 (buf : List Nat) : Option (Nat × List Nat) := do
  let b ← buf.head?
  if b &&& 0x80 == 0x80 then
    let (v, buf) ← g4 buf
    pure (v &&& 0x7fffffff, buf)
  else
    g2 buf

/-- State of the triangle-index reconstruction machine of
ModelUnlit::decode_indices (src/runetek5/graphics/model.rs, lines 955-1029):
the working corner indices a, b, c, the last emitted index, and the running
used-vertex maximum (the local used_vertex_count, initialised to -1).
All five are i32 locals in the source. -/
structure IdxState where
  a : Int
  b : Int
  c : Int
  last : Int
  used : Int
  deriving Repr, DecidableEq

/-- One iteration of the loop body of ModelUnlit::decode_indices, after the
index-type byte has been read. Returns the new state, the rest of the index
buffer, and the (a, b, c) row written into triangle_a/b/c at this position.
For an index type outside 1..4 the source writes nothing and consumes no
deltas, so the zero-initialised row remains. -/
def decodeIndicesStep (st : IdxState) (indexType : Nat) (ib : List Nat) :
    Option (IdxState × List Nat × (Int × Int × Int)) :=
  match indexType with
  | 1 => do
    let (d1, ib) ← getSmart1or2s ib
    let (d2, ib) ← getSmart1or2s ib
    let (d3, ib) ← getSmart1or2s ib
    let a := d1 + st.last
    let b := d2 + a
    let c := d3 + b
    let used := max (max (max st.used a) b) c
    pure (⟨a, b, c, c, used⟩, ib, (a, b, c))
  | 2 => do
    let (d, ib) ← getSmart1or2s ib
    let b := st.c
    let c := d + st.last
    let used := max st.used c
    pure (⟨st.a, b, c, c, used⟩, ib, (st.a, b, c))
  | 3 => do
    let (d, ib) ← getSmart1or2s ib
    let a := st.c
    let c := d + st.last
    let used := max st.used c
    pure (⟨a, st.b, c, c, used⟩, ib, (a, st.b, c))
  | 4 => do
    let (d, ib) ← getSmart1or2s ib
    let temp := st.a
    let a := st.b
    let b := temp
    let c := d + st.last
    let used := max st.used c
    pure (⟨a, b, c, c, used⟩, ib, (a, temp, c))
  | _ => pure (st, ib, (0, 0, 0))

/-- The loop of ModelUnlit::decode_indices over triangleCount triangles:
read one index-type byte per triangle from the type buffer, run the state
machine, and collect the rows written to triangle_a/b/c. -/
def decodeIndicesGo : Nat → IdxState → List Nat → List Nat →
    Option (List (Int × Int × Int) × IdxState)
  | 0, st, _, _ => some ([], st)
  | n + 1, st, ib, tb => do
    let (ty, tb) ← g1 tb
    let (st, ib, row) ← decodeIndicesStep st ty ib
    let (rows, fin) ← decodeIndicesGo n st ib tb
    pure (row :: rows, fin)

/-- Reduction of an i32 value to the u16 actually stored, modelling the
`as u16` casts of decode_indices. -/
def u16cast (x : Int) : Nat := (x % 65536).toNat

/-- Row-wise u16 reduction for a decoded triangle. -/
def u16row (r : Int × Int × Int) : Nat × Nat × Nat :=
  (u16cast r.1, u16cast r.2.1, u16cast r.2.2)

/-- ModelUnlit::decode_indices: starting from a = b = c = last_index = 0 and
used_vertex_count = -1, decode triangleCount rows, then store
used_vertex_count + 1 (as u16). Returns the stored u16 rows and the stored
used_vertex_count field. -/
def decodeIndices (triangleCount : Nat) (ib tb : List Nat) :
    Option (List (Nat × Nat × Nat) × Nat) := do
  let (rows, fin) ← decodeIndicesGo triangleCount ⟨0, 0, 0, 0, -1⟩ ib tb
  pure (rows.map u16row, u16cast (fin.used + 1))

/-- Fold computing the largest index stored across the three triangle
arrays, with 0 for an empty mesh. -/
def maxVertexIndex (rows : List (Nat × Nat × Nat)) : Nat :=
  rows.foldl (fun m r => max (max (max m r.1) r.2.1) r.2.2) 0

/-- Integer fold of the stored-row maximum, starting from the initial
used-vertex accumulator -1. -/
def rowsMaxI (rows : List (Int × Int × Int)) : Int :=
  rows.foldl (fun m r => max (max (max m r.1) r.2.1) r.2.2) (-1)

/-- C1: decoding triangle indices runs the shared state machine started at
(a, b, c, last_index) = (0, 0, 0, 0). Type 1 reads three smart1or2s deltas
d1, d2, d3 and sets a = d1 + last_index, b = d2 + a, c = d3 + b,
last_index = c; type 2 sets b = c then c = delta + last_index keeping a;
type 3 sets a = c then c = delta + last_index keeping b; type 4 swaps a and
b, sets c = delta + last_index, and stores the pre-swap value of a in the b
slot of the triangle. Starting from (0, 0, 0, 0), a type-1 triangle with
deltas +3, +2, +1 yields (a, b, c, last) = (3, 5, 6, 6) and a following
type-2 triangle with delta +5 yields (3, 6, 11, 11). -/
theorem C1_triangle_index_state_machine :
    (∀ (st : IdxState) (ib ib1 ib2 ib3 : List Nat) (d1 d2 d3 : Int),
      getSmart1or2s ib = some (d1, ib1) → getSmart1or2s ib1 = some (d2, ib2) →
      getSmart1or2s ib2 = some (d3, ib3) →
      ∃ st2, decodeIndicesStep st 1 ib = some (st2, ib3, (st2.a, st2.b, st2.c)) ∧
        st2.a = d1 + st.last ∧ st2.b = d2 + st2.a ∧ st2.c = d3 + st2.b ∧
        st2.last = st2.c) ∧
    (∀ (st : IdxState) (ib ib1 : List Nat) (d : Int),
      getSmart1or2s ib = some (d, ib1) →
      ∃ st2, decodeIndicesStep st 2 ib = some (st2, ib1, (st2.a, st2.b, st2.c)) ∧
        st2.a = st.a ∧ st2.b = st.c ∧ st2.c = d + st.last ∧ st2.last = st2.c) ∧
    (∀ (st : IdxState) (ib ib1 : List Nat) (d : Int),
      getSmart1or2s ib = some (d, ib1) →
      ∃ st2, decodeIndicesStep st 3 ib = some (st2, ib1, (st2.a, st2.b, st2.c)) ∧
        st2.a = st.c ∧ st2.b = st.b ∧ st2.c = d + st.last ∧ st2.last = st2.c) ∧
    (∀ (st : IdxState) (ib ib1 : List Nat) (d : Int),
      getSmart1or2s ib = some (d, ib1) →
      ∃ st2, decodeIndicesStep st 4 ib = some (st2, ib1, (st2.a, st.a, st2.c)) ∧
        st2.a = st.b ∧ st2.b = st.a ∧ st2.c = d + st.last ∧ st2.last = st2.c) ∧
    decodeIndicesGo 2 ⟨0, 0, 0, 0, -1⟩ [67, 66, 65, 69] [1, 2] =
      some ([(3, 5, 6), (3, 6, 11)], ⟨3, 6, 11, 11, 11⟩) := by
  refine ⟨?_, ?_, ?_, ?_, by decide⟩
  · intro st ib ib1 ib2 ib3 d1 d2 d3 h1 h2 h3
    refine ⟨⟨d1 + st.last, d2 + (d1 + st.last), d3 + (d2 + (d1 + st.last)),
      d3 + (d2 + (d1 + st.last)),
      max (max (max st.used (d1 + st.last)) (d2 + (d1 + st.last)))
        (d3 + (d2 + (d1 + st.last)))⟩, ?_, rfl, rfl, rfl, rfl⟩
    simp [decodeIndicesStep, h1, h2, h3]
  · intro st ib ib1 d h
    refine ⟨⟨st.a, st.c, d + st.last, d + st.last, max st.used (d + st.last)⟩,
      ?_, rfl, rfl, rfl, rfl⟩
    simp [decodeIndicesStep, h]
  · intro st ib ib1 d h
    refine ⟨⟨st.c, st.b, d + st.last, d + st.last, max st.used (d + st.last)⟩,
      ?_, rfl, rfl, rfl, rfl⟩
    simp [decodeIndicesStep, h]
  · intro st ib ib1 d h
    refine ⟨⟨st.b, st.a, d + st.last, d + st.last, max st.used (d + st.last)⟩,
      ?_, rfl, rfl, rfl, rfl⟩
    simp [decodeIndicesStep, h]

/-- Witness for C1: the type-1 branch applied to the concrete delta bytes
67, 66, 65 (encoding +3, +2, +1). -/
theorem C1_triangle_index_state_machine_witness :
    ∃ st2, decodeIndicesStep ⟨0, 0, 0, 0, 0⟩ 1 [67, 66, 65] =
        some (st2, [], (st2.a, st2.b, st2.c)) ∧
      st2.a = 3 + (0 : Int) ∧ st2.b = 2 + st2.a ∧ st2.c = 1 + st2.b ∧
      st2.last = st2.c :=
  C1_triangle_index_state_machine.1 ⟨0, 0, 0, 0, 0⟩ [67, 66, 65] [66, 65] [65] []
    3 2 1 (by decide) (by decide) (by decide)

/-- C9 (amended): an index-type byte outside 1..4 is not an error. The
decoder silently skips the triangle: it consumes no delta bytes, leaves the
machine state unchanged, and leaves the zero-initialised row in the
triangle arrays, then continues with the next triangle. -/
theorem C9_unknown_index_type_skipped (st : IdxState) (ty : Nat) (ib : List Nat)
    (h1 : ty ≠ 1) (h2 : ty ≠ 2) (h3 : ty ≠ 3) (h4 : ty ≠ 4) :
    decodeIndicesStep st ty ib = some (st, ib, (0, 0, 0)) := by
  match ty with
  | 0 => rfl
  | 1 => exact absurd rfl h1
  | 2 => exact absurd rfl h2
  | 3 => exact absurd rfl h3
  | 4 => exact absurd rfl h4
  | n + 5 => rfl

/-- Witness for C9 applied at index type 0. -/
theorem C9_unknown_index_type_skipped_witness :
    decodeIndicesStep ⟨0, 0, 0, 0, -1⟩ 0 [] = some (⟨0, 0, 0, 0, -1⟩, [], (0, 0, 0)) :=
  C9_unknown_index_type_skipped ⟨0, 0, 0, 0, -1⟩ 0 []
    (by decide) (by decide) (by decide) (by decide)

/-- Counterexample to C9 as stated: a one-triangle mesh whose index-type
byte is 0 decodes successfully rather than failing; the decoder reports no
error and returns the zero triangle with used_vertex_count 0. -/
theorem C9_counterexample :
    decodeIndices 1 [] [0] = some ([(0, 0, 0)], 0) ∧
      decodeIndices 1 [] [0] ≠ none := by
  exact ⟨by decide, by decide⟩

/-- Behaviour of one successful decode_indices step on the used-vertex
accumulator: for an index type in 1..4, if every stored row component is
non-negative and the working corner indices are bounded by the accumulator,
the new accumulator is the fold of the emitted row over the old one, the
accumulator never decreases, and the bound on the working indices is
maintained. -/
theorem decodeIndicesStep_used (st : IdxState) (ty : Nat) (ib : List Nat)
    (st2 : IdxState) (ib2 : List Nat) (row : Int × Int × Int)
    (hty : ty = 1 ∨ ty = 2 ∨ ty = 3 ∨ ty = 4)
    (h : decodeIndicesStep st ty ib = some (st2, ib2, row))
    (hrow : 0 ≤ row.1 ∧ 0 ≤ row.2.1 ∧ 0 ≤ row.2.2)
    (hinv : st.a ≤ max st.used 0 ∧ st.b ≤ max st.used 0 ∧ st.c ≤ max st.used 0) :
    st2.used = max (max (max st.used row.1) row.2.1) row.2.2 ∧
      st.used ≤ st2.used ∧
      st2.a ≤ max st2.used 0 ∧ st2.b ≤ max st2.used 0 ∧ st2.c ≤ max st2.used 0 := by
  rcases hty with rfl | rfl | rfl | rfl
  · rcases hsm1 : getSmart1or2s ib with _ | ⟨d1, ib1⟩ <;>
      simp [decodeIndicesStep, hsm1] at h
    rcases hsm2 : getSmart1or2s ib1 with _ | ⟨d2, ibb⟩ <;>
      simp [hsm2] at h
    rcases hsm3 : getSmart1or2s ibb with _ | ⟨d3, ibc⟩ <;>
      simp [hsm3] at h
    obtain ⟨rfl, -, rfl⟩ := h
    refine ⟨by simp, ?_⟩
    simp only [IdxState.mk.injEq] at *
    omega
  · rcases hsm1 : getSmart1or2s ib with _ | ⟨d1, ib1⟩ <;>
      simp [decodeIndicesStep, hsm1] at h
    obtain ⟨rfl, -, rfl⟩ := h
    simp only at *
    refine ⟨?_, ?_⟩ <;> omega
  · rcases hsm1 : getSmart1or2s ib with _ | ⟨d1, ib1⟩ <;>
      simp [decodeIndicesStep, hsm1] at h
    obtain ⟨rfl, -, rfl⟩ := h
    simp only at *
    refine ⟨?_, ?_⟩ <;> omega
  · rcases hsm1 : getSmart1or2s ib with _ | ⟨d1, ib1⟩ <;>
      simp [decodeIndicesStep, hsm1] at h
    obtain ⟨rfl, -, rfl⟩ := h
    simp only at *
    refine ⟨?_, ?_⟩ <;> omega

/-- Accumulator tracking over the whole decode loop: with index types in
1..4, non-negative stored rows and the invariant on the working indices,
the final used-vertex accumulator is the row-maximum fold over the emitted
rows started from the incoming accumulator. -/
theorem decodeIndicesGo_used (n : Nat) (st : IdxState) (ib tb : List Nat)
    (rows : List (Int × Int × Int)) (fin : IdxState)
    (hdec : decodeIndicesGo n st ib tb = some (rows, fin))
    (hty : ∀ t ∈ tb.take n, t = 1 ∨ t = 2 ∨ t = 3 ∨ t = 4)
    (hrow : ∀ r ∈ rows, 0 ≤ r.1 ∧ 0 ≤ r.2.1 ∧ 0 ≤ r.2.2)
    (hinv : st.a ≤ max st.used 0 ∧ st.b ≤ max st.used 0 ∧ st.c ≤ max st.used 0) :
    fin.used = rows.foldl (fun m r => max (max (max m r.1) r.2.1) r.2.2) st.used := by
  induction n generalizing st ib tb rows with
  | zero =>
    simp [decodeIndicesGo] at hdec
    obtain ⟨rfl, rfl⟩ := hdec
    rfl
  | succ n ihn =>
    rcases tb with _ | ⟨ty, tb⟩
    · simp [decodeIndicesGo, g1] at hdec
    rcases hstep : decodeIndicesStep st ty ib with _ | ⟨st1, ib1, row⟩ <;>
      simp [decodeIndicesGo, g1, hstep] at hdec
    rcases hrest : decodeIndicesGo n st1 ib1 tb with _ | ⟨rows1, fin1⟩ <;>
      simp [hrest] at hdec
    obtain ⟨rfl, rfl⟩ := hdec
    have htyhead : ty = 1 ∨ ty = 2 ∨ ty = 3 ∨ ty = 4 := by
      apply hty
      simp [List.take_cons]
    have hrowhead : 0 ≤ row.1 ∧ 0 ≤ row.2.1 ∧ 0 ≤ row.2.2 := by
      apply hrow
      simp
    obtain ⟨hused1, -, hinv1⟩ :=
      decodeIndicesStep_used st ty ib st1 ib1 row htyhead hstep hrowhead hinv
    have htail := ihn st1 ib1 tb rows1 hrest
      (by intro t ht; exact hty t (by simp [List.take_cons]; right; exact ht))
      (by intro r hr; exact hrow r (by simp [hr]))
      hinv1
    simp only [List.foldl_cons, htail, hused1]

/-- Reduction of u16cast to the identity on values already in range. -/
theorem u16cast_int (x : Int) (h0 : 0 ≤ x) (h1 : x < 65536) :
    ((u16cast x : Nat) : Int) = x := by
  unfold u16cast
  rw [Int.emod_eq_of_lt h0 (by omega), Int.toNat_of_nonneg h0]

/-- The integer row-maximum fold from a cast start agrees with the natural
fold over the u16-reduced rows when every component is in u16 range. -/
theorem foldl_rowmax_cast (rows : List (Int × Int × Int))
    (hb : ∀ r ∈ rows, (0 ≤ r.1 ∧ r.1 < 65536) ∧ (0 ≤ r.2.1 ∧ r.2.1 < 65536) ∧
      (0 ≤ r.2.2 ∧ r.2.2 < 65536)) (s : Nat) :
    rows.foldl (fun m r => max (max (max m r.1) r.2.1) r.2.2) (s : Int)
      = ((rows.map u16row).foldl (fun m r => max (max (max m r.1) r.2.1) r.2.2) s : Nat) := by
  induction rows generalizing s with
  | nil => simp
  | cons r rest ih =>
    have hr := hb r (List.mem_cons_self r rest)
    have c1 := u16cast_int r.1 hr.1.1 hr.1.2
    have c2 := u16cast_int r.2.1 hr.2.1.1 hr.2.1.2
    have c3 := u16cast_int r.2.2 hr.2.2.1 hr.2.2.2
    simp only [List.foldl_cons, List.map_cons, u16row]
    have hrest : ∀ x ∈ rest, (0 ≤ x.1 ∧ x.1 < 65536) ∧ (0 ≤ x.2.1 ∧ x.2.1 < 65536) ∧
        (0 ≤ x.2.2 ∧ x.2.2 < 65536) := fun x hx => hb x (List.mem_cons_of_mem r hx)
    rw [show max (max (max (s : Int) r.1) r.2.1) r.2.2
        = ((max (max (max s (u16cast r.1)) (u16cast r.2.1)) (u16cast r.2.2) : Nat) : Int) by
      simp only [Nat.cast_max, c1, c2, c3]]
    exact ih hrest _

/-- For a non-empty row list with u16-range components, the integer
row-maximum fold from -1 is the natural maximum of the stored arrays. -/
theorem rowsMaxI_bridge (rows : List (Int × Int × Int)) (hne : rows ≠ [])
    (hb : ∀ r ∈ rows, (0 ≤ r.1 ∧ r.1 < 65536) ∧ (0 ≤ r.2.1 ∧ r.2.1 < 65536) ∧
      (0 ≤ r.2.2 ∧ r.2.2 < 65536)) :
    rowsMaxI rows = (maxVertexIndex (rows.map u16row) : Int) := by
  rcases rows with _ | ⟨r, rest⟩
  · exact absurd rfl hne
  have hr := hb r (List.mem_cons_self r rest)
  have c1 := u16cast_int r.1 hr.1.1 hr.1.2
  have c2 := u16cast_int r.2.1 hr.2.1.1 hr.2.1.2
  have c3 := u16cast_int r.2.2 hr.2.2.1 hr.2.2.2
  have hrest : ∀ x ∈ rest, (0 ≤ x.1 ∧ x.1 < 65536) ∧ (0 ≤ x.2.1 ∧ x.2.1 < 65536) ∧
      (0 ≤ x.2.2 ∧ x.2.2 < 65536) := fun x hx => hb x (List.mem_cons_of_mem r hx)
  unfold rowsMaxI maxVertexIndex
  simp only [List.foldl_cons, List.map_cons]
  rw [show max (max (max (-1 : Int) r.1) r.2.1) r.2.2
      = ((max (max (max 0 (u16cast r.1)) (u16cast r.2.1)) (u16cast r.2.2) : Nat) : Int) by
    simp only [u16row, Nat.cast_max, c1, c2, c3]
    push_cast
    omega]
  exact foldl_rowmax_cast rest hrest _

/-- An upper bound for the stored-row maximum fold. -/
theorem foldl_rowmax_lt (rows : List (Nat × Nat × Nat))
    (hb : ∀ r ∈ rows, r.1 < 65535 ∧ r.2.1 < 65535 ∧ r.2.2 < 65535)
    (s : Nat) (hs : s < 65535) :
    rows.foldl (fun m r => max (max (max m r.1) r.2.1) r.2.2) s < 65535 := by
  induction rows generalizing s with
  | nil => simpa using hs
  | cons r rest ih =>
    have hr := hb r (List.mem_cons_self r rest)
    simp only [List.foldl_cons]
    exact ih (fun x hx => hb x (List.mem_cons_of_mem r hx)) _ (by omega)

/-- C2 (amended): for every mesh produced by decode_indices from streams
whose index-type bytes are all in 1..4 and whose reconstructed corner
indices all lie in [0, 65535), the stored used_vertex_count equals 1 plus
the maximum vertex index occurring in the triangle_a, triangle_b and
triangle_c arrays, and 0 when there are no triangles. -/
theorem C2_used_vertex_count (n : Nat) (ib tb : List Nat)
    (rows : List (Int × Int × Int)) (fin : IdxState)
    (hdec : decodeIndicesGo n ⟨0, 0, 0, 0, -1⟩ ib tb = some (rows, fin))
    (hty : ∀ t ∈ tb.take n, t = 1 ∨ t = 2 ∨ t = 3 ∨ t = 4)
    (hrow : ∀ r ∈ rows, (0 ≤ r.1 ∧ r.1 < 65535) ∧ (0 ≤ r.2.1 ∧ r.2.1 < 65535) ∧
      (0 ≤ r.2.2 ∧ r.2.2 < 65535)) :
    decodeIndices n ib tb
      = some (rows.map u16row,
          if rows = [] then 0 else maxVertexIndex (rows.map u16row) + 1) := by
  have hb : ∀ r ∈ rows, (0 ≤ r.1 ∧ r.1 < 65536) ∧ (0 ≤ r.2.1 ∧ r.2.1 < 65536) ∧
      (0 ≤ r.2.2 ∧ r.2.2 < 65536) := by
    intro r hr
    have := hrow r hr
    omega
  have hused : fin.used = rowsMaxI rows :=
    decodeIndicesGo_used n ⟨0, 0, 0, 0, -1⟩ ib tb rows fin hdec hty
      (fun r hr => by have := hrow r hr; omega) (by simp)
  unfold decodeIndices
  rw [hdec]
  simp only [Option.pure_def, Option.bind_eq_bind, Option.some_bind, Option.some.injEq,
    Prod.mk.injEq, true_and]
  by_cases hne : rows = []
  · subst hne
    simp only [if_pos rfl]
    have : fin.used = -1 := hused
    rw [this]
    rfl
  · rw [if_neg hne]
    have hbridge : fin.used = (maxVertexIndex (rows.map u16row) : Int) := by
      rw [hused]
      exact rowsMaxI_bridge rows hne hb
    have hmlt : maxVertexIndex (rows.map u16row) < 65535 := by
      apply foldl_rowmax_lt
      · intro r' hr'
        obtain ⟨r, hr, rfl⟩ := List.mem_map.mp hr'
        have hbr := hb r hr
        have hrr := hrow r hr
        have c1 := u16cast_int r.1 hbr.1.1 hbr.1.2
        have c2 := u16cast_int r.2.1 hbr.2.1.1 hbr.2.1.2
        have c3 := u16cast_int r.2.2 hbr.2.2.1 hbr.2.2.2
        simp only [u16row]
        omega
      · omega
    rw [hbridge]
    generalize maxVertexIndex (rows.map u16row) = m at hmlt ⊢
    unfold u16cast
    omega

/-- Witness for C2 at the concrete two-triangle stream of C1. -/
theorem C2_used_vertex_count_witness :
    decodeIndices 2 [67, 66, 65, 69] [1, 2]
      = some (([(3, 5, 6), (3, 6, 11)] : List (Int × Int × Int)).map u16row,
          if ([(3, 5, 6), (3, 6, 11)] : List (Int × Int × Int)) = [] then 0
          else maxVertexIndex (([(3, 5, 6), (3, 6, 11)] : List (Int × Int × Int)).map u16row) + 1) :=
  C2_used_vertex_count 2 [67, 66, 65, 69] [1, 2] [(3, 5, 6), (3, 6, 11)]
    ⟨3, 6, 11, 11, 11⟩ (by decide) (by decide) (by decide)

/-- Counterexample to C2 as stated: a stream with the unknown index type 5
produces a mesh with one triangle, all of whose stored indices are 0, yet
whose used_vertex_count is 0 rather than 0 + 1. -/
theorem C2_counterexample :
    decodeIndices 1 [] [5] = some ([(0, 0, 0)], 0) ∧
      (0 : Nat) ≠ maxVertexIndex [(0, 0, 0)] + 1 := by
  exact ⟨by decide, by decide⟩

/-- Clamp of an integer into the interval [lo, hi], as used by the
spec-level formula of the claim. -/
def clampI (x lo hi : Int) : Int := max lo (min hi x)

/-- Function adjust_lightness (src/runetek5/graphics/model.rs, lines
1475-1484): new_lightness = (hsl & 0x7f) * lightness >> 7 on i32 with an
arithmetic shift, brought into [2, 126] by the two if branches, then
recombined with the upper bits of hsl. The final `as u16` cast is the
identity because the clamped value lies in [2, 126]; the i32 product is
modelled exactly. -/
def adjust_lightness (hsl : Nat) (lightness : Int) : Nat :=
  let n0 : Int := ((hsl &&& 0x7f : Nat) : Int) * lightness >>> 7
  let n1 : Int := if n0 < 2 then 2 else if n0 > 126 then 126 else n0
  (hsl &&& 0xff80) ||| n1.toNat

/-- Claim-side formula for adjust_lightness, written from the words of the
claim: (hsl & 0xFF80) OR clamp((hsl & 0x7F) * L >> 7, 2, 126). -/
def adjustLightnessSpec (hsl : Nat) (lightness : Int) : Nat :=
  (hsl &&& 0xff80) ||| (clampI (((hsl &&& 0x7f : Nat) : Int) * lightness >>> 7) 2 126).toNat

/-- C5 (amended): adjust_lightness(hsl, L) equals
(hsl & 0xFF80) | clamp(((hsl & 0x7F) * L) >> 7, 2, 126); in particular
adjust_lightness(0x3F80, 300) = 0x3F82 (not 0x3F7E: the low 7 bits of
0x3F80 are zero, so the scaled lightness clamps to the minimum 2) and
adjust_lightness(0x3F01, 0) = 0x3F02. -/
theorem C5_adjust_lightness :
    (∀ (hsl : Nat) (lightness : Int),
      adjust_lightness hsl lightness = adjustLightnessSpec hsl lightness) ∧
    adjust_lightness 0x3F80 300 = 0x3F82 ∧ adjust_lightness 0x3F01 0 = 0x3F02 := by
  refine ⟨?_, by decide, by decide⟩
  intro hsl lightness
  simp only [adjust_lightness, adjustLightnessSpec, clampI]
  congr 1
  congr 1
  split_ifs <;> omega

/-- Counterexample to C5 as stated: at hsl = 0x3F80 and lightness = 300 the
function returns 0x3F82, not the 0x3F7E given in the claim. -/
theorem C5_counterexample :
    adjust_lightness 0x3F80 300 = 0x3F82 ∧ (0x3F82 : Nat) ≠ 0x3F7E := by
  exact ⟨by decide, by decide⟩

/-- Handle modelling an Arc-wrapped array of a lit model. Cloning the Arc,
which shares the underlying allocation, keeps the handle unchanged, while
Arc::new(Vec::clone(..)) produces a fresh allocation remembering what it
copied. -/
inductive ArcHandle where
  | root (id : Nat) : ArcHandle
  | fresh (src : ArcHandle) : ArcHandle
  deriving Repr, DecidableEq

/-- A fresh allocation is never the shared original. -/
theorem arcHandle_fresh_ne (h : ArcHandle) : ArcHandle.fresh h ≠ h := by
  induction h with
  | root i => simp
  | fresh h ih => exact fun hEq => ih (ArcHandle.fresh.inj hEq)

/-- Bit values of ModelFlags (src/runetek5/graphics/model.rs, lines
1496-1518). -/
def CHANGED_X : Nat := 1 <<< 0

/-- Bit 1 of ModelFlags. -/
def CHANGED_Y : Nat := 1 <<< 1

/-- Bit 2 of ModelFlags. -/
def CHANGED_Z : Nat := 1 <<< 2

/-- Bit 3 of ModelFlags. -/
def ROTATED : Nat := 1 <<< 3

/-- Bit 4 of ModelFlags. -/
def MIRRORED : Nat := 1 <<< 4

/-- Bit 5 of ModelFlags. -/
def ANIMATED_POSITION : Nat := 1 <<< 5

/-- Bit 7 of ModelFlags. -/
def ANIMATED_COLOUR : Nat := 1 <<< 7

/-- Bit 8 of ModelFlags. -/
def ANIMATED_TRANSPARENCY : Nat := 1 <<< 8

/-- Bit 9 of ModelFlags. -/
def ANIMATED_NORMAL : Nat := 1 <<< 9

/-- Bit 14 of ModelFlags. -/
def RECOLOURED : Nat := 1 <<< 14

/-- Bit 15 of ModelFlags. -/
def RETEXTURED : Nat := 1 <<< 15

/-- Bit 20 of ModelFlags. -/
def CHANGED_AMBIENT_COLOUR : Nat := 1 <<< 20

/-- The bitflags intersects test: at least one bit of the mask is set. -/
def flagsIntersects (flags mask : Nat) : Bool := flags &&& mask != 0

/-- The bitflags contains test: every bit of the mask is set. -/
def flagsContains (flags mask : Nat) : Bool := flags &&& mask == mask

/-- ModelFlags::has_changed_x (src/runetek5/graphics/model.rs). -/
def has_changed_x (flags : Nat) : Bool :=
  flagsIntersects flags (CHANGED_X ||| ANIMATED_POSITION)

/-- ModelFlags::has_changed_y. -/
def has_changed_y (flags : Nat) : Bool :=
  flagsIntersects flags (CHANGED_Y ||| ANIMATED_POSITION)

/-- ModelFlags::has_changed_z. -/
def has_changed_z (flags : Nat) : Bool :=
  flagsIntersects flags (CHANGED_Z ||| MIRRORED ||| ANIMATED_POSITION)

/-- ModelFlags::has_changed_colour. -/
def has_changed_colour (flags : Nat) : Bool :=
  flagsIntersects flags (ANIMATED_COLOUR ||| RECOLOURED ||| CHANGED_AMBIENT_COLOUR)

/-- ModelFlags::has_changed_transparency. -/
def has_changed_transparency (flags : Nat) : Bool :=
  flagsIntersects flags ANIMATED_TRANSPARENCY

/-- ModelFlags::has_changed_material. -/
def has_changed_material (flags : Nat) : Bool :=
  flagsIntersects flags RETEXTURED

/-- ModelFlags::has_changed_indices. -/
def has_changed_indices (flags : Nat) : Bool :=
  flagsIntersects flags MIRRORED

/-- ModelFlags::has_changed_normals. -/
def has_changed_normals (flags : Nat) : Bool :=
  flagsContains flags (ANIMATED_POSITION ||| ANIMATED_NORMAL)
    || flagsIntersects flags (ROTATED ||| MIRRORED)

/-- ModelFlags::has_changed_texcoords: constantly false in the source. -/
def has_changed_texcoords (_flags : Nat) : Bool := false

/-- Provenance of every Arc-held array of a ModelLit
(src/runetek5/graphics/model.rs, lines 1612-1644). -/
structure ModelLitArrays where
  vertex_unique_index : ArcHandle
  vertex_x : ArcHandle
  vertex_y : ArcHandle
  vertex_z : ArcHandle
  vertex_stream_pos : ArcHandle
  normal_x : ArcHandle
  normal_y : ArcHandle
  normal_z : ArcHandle
  normal_magnitude : ArcHandle
  texcoord_u : ArcHandle
  texcoord_v : ArcHandle
  triangle_render_type : ArcHandle
  triangle_colour : ArcHandle
  triangle_transparency : ArcHandle
  triangle_material : ArcHandle
  triangle_render_a : ArcHandle
  triangle_render_b : ArcHandle
  triangle_render_c : ArcHandle
  deriving Repr, DecidableEq

/-- ModelLit::copy (src/runetek5/graphics/model.rs, lines 2164-2247),
restricted to the provenance of the Arc-held arrays: vertex_unique_index,
vertex_stream_pos and triangle_render_type are Arc clones unconditionally;
every other array is either an Arc clone or, when the matching change
predicate of the flag set holds, a fresh Vec clone. Scalar fields of the
copy are plain value copies and carry no provenance. -/
def modelLitCopy (m : ModelLitArrays) (flags : Nat) : ModelLitArrays where
  vertex_unique_index := m.vertex_unique_index
  vertex_stream_pos := m.vertex_stream_pos
  triangle_render_type := m.triangle_render_type
  vertex_x := if has_changed_x flags then .fresh m.vertex_x else m.vertex_x
  vertex_y := if has_changed_y flags then .fresh m.vertex_y else m.vertex_y
  vertex_z := if has_changed_z flags then .fresh m.vertex_z else m.vertex_z
  triangle_colour :=
    if has_changed_colour flags then .fresh m.triangle_colour else m.triangle_colour
  triangle_transparency :=
    if has_changed_transparency flags then .fresh m.triangle_transparency
    else m.triangle_transparency
  triangle_material :=
    if has_changed_material flags then .fresh m.triangle_material else m.triangle_material
  triangle_render_a :=
    if has_changed_indices flags then .fresh m.triangle_render_a else m.triangle_render_a
  triangle_render_b :=
    if has_changed_indices flags then .fresh m.triangle_render_b else m.triangle_render_b
  triangle_render_c :=
    if has_changed_indices flags then .fresh m.triangle_render_c else m.triangle_render_c
  normal_x := if has_changed_normals flags then .fresh m.normal_x else m.normal_x
  normal_y := if has_changed_normals flags then .fresh m.normal_y else m.normal_y
  normal_z := if has_changed_normals flags then .fresh m.normal_z else m.normal_z
  normal_magnitude :=
    if has_changed_normals flags then .fresh m.normal_magnitude else m.normal_magnitude
  texcoord_u := if has_changed_texcoords flags then .fresh m.texcoord_u else m.texcoord_u
  texcoord_v := if has_changed_texcoords flags then .fresh m.texcoord_v else m.texcoord_v

/-- C10: for every lit mesh and every flag set, copy always shares (never
clones) the vertex_unique_index, vertex_stream_pos and triangle_render_type
arrays with the original, regardless of which bits are set; the coordinate,
colour, transparency, material, render-index, normal and texcoord arrays
are cloned exactly when the matching change predicate of the flag set
holds, and shared otherwise. -/
theorem C10_copy_sharing (m : ModelLitArrays) (flags : Nat) :
    (modelLitCopy m flags).vertex_unique_index = m.vertex_unique_index ∧
    (modelLitCopy m flags).vertex_stream_pos = m.vertex_stream_pos ∧
    (modelLitCopy m flags).triangle_render_type = m.triangle_render_type ∧
    ((modelLitCopy m flags).vertex_x = .fresh m.vertex_x ↔ has_changed_x flags = true) ∧
    ((modelLitCopy m flags).vertex_y = .fresh m.vertex_y ↔ has_changed_y flags = true) ∧
    ((modelLitCopy m flags).vertex_z = .fresh m.vertex_z ↔ has_changed_z flags = true) ∧
    ((modelLitCopy m flags).triangle_colour = .fresh m.triangle_colour ↔
      has_changed_colour flags = true) ∧
    ((modelLitCopy m flags).triangle_transparency = .fresh m.triangle_transparency ↔
      has_changed_transparency flags = true) ∧
    ((modelLitCopy m flags).triangle_material = .fresh m.triangle_material ↔
      has_changed_material flags = true) ∧
    ((modelLitCopy m flags).triangle_render_a = .fresh m.triangle_render_a ↔
      has_changed_indices flags = true) ∧
    ((modelLitCopy m flags).triangle_render_b = .fresh m.triangle_render_b ↔
      has_changed_indices flags = true) ∧
    ((modelLitCopy m flags).triangle_render_c = .fresh m.triangle_render_c ↔
      has_changed_indices flags = true) ∧
    ((modelLitCopy m flags).normal_x = .fresh m.normal_x ↔
      has_changed_normals flags = true) ∧
    ((modelLitCopy m flags).normal_y = .fresh m.normal_y ↔
      has_changed_normals flags = true) ∧
    ((modelLitCopy m flags).normal_z = .fresh m.normal_z ↔
      has_changed_normals flags = true) ∧
    ((modelLitCopy m flags).normal_magnitude = .fresh m.normal_magnitude ↔
      has_changed_normals flags = true) ∧
    (modelLitCopy m flags).texcoord_u = m.texcoord_u ∧
    (modelLitCopy m flags).texcoord_v = m.texcoord_v := by
  refine ⟨rfl, rfl, rfl, ?_, ?_, ?_, ?_, ?_, ?_, ?_, ?_, ?_, ?_, ?_, ?_, ?_,
    by simp [modelLitCopy, has_changed_texcoords],
    by simp [modelLitCopy, has_changed_texcoords]⟩ <;>
  · simp only [modelLitCopy]
    split_ifs with hc
    · simp [hc]
    · exact ⟨fun hEq => absurd hEq.symm (arcHandle_fresh_ne _), fun hp => absurd hp hc⟩

/-- Repeated read of a fixed number of values from a byte stream. -/
def readCount {α : Type} (read : List Nat → Option (α × List Nat)) :
    Nat → List Nat → Option (List α × List Nat)
  | 0, buf => some ([], buf)
  | n + 1, buf => do
    let (v, buf) ← read buf
    let (vs, buf) ← readCount read n buf
    pure (v :: vs, buf)

/-- Packet.get_array for a fixed-size byte block (whirlpool and md5 hashes
of the index). -/
def readBytes (n : Nat) (buf : List Nat) : Option (List Nat × List Nat) :=
  readCount g1 n buf

/-- The delta-decoded id loop of Js5Index::decode: read n deltas with the
protocol-dependent reader and emit the running prefix sums, together with
the final running id. -/
def readDeltaIds (read : List Nat → Option (Nat × List Nat)) :
    Nat → Nat → List Nat → Option (List Nat × Nat × List Nat)
  | 0, last, buf => some ([], last, buf)
  | n + 1, last, buf => do
    let (d, buf) ← read buf
    let last2 := last + d
    let (ids, lastF, buf) ← readDeltaIds read n last2 buf
    pure (last2 :: ids, lastF, buf)

/-- The scatter loops of Js5Index::decode: for each group id in order, read
one value and store it at that id in a capacity-sized array. -/
def scatterRead {α : Type} (read : List Nat → Option (α × List Nat)) :
    List Nat → List α → List Nat → Option (List α × List Nat)
  | [], arr, buf => some (arr, buf)
  | id :: rest, arr, buf => do
    let (v, buf) ← read buf
    scatterRead read rest (arr.set id v) buf

/-- The per-group file-table loop of Js5Index::decode: for each group id,
look up its file count, delta-decode that many file ids, record the file
capacity (last file id + 1, or 0 for an empty group), and store the file-id
list only when the count differs from the capacity (a dense group keeps
the implicit identity numbering). -/
def readFileTables (read : List Nat → Option (Nat × List Nat)) :
    List Nat → List Nat → List Nat → List (Option (List Nat)) → List Nat →
    Option (List Nat × List (Option (List Nat)) × List Nat)
  | [], _, caps, fids, buf => some (caps, fids, buf)
  | id :: rest, counts, caps, fids, buf => do
    let file_count ← counts[id]?
    let (file_ids, last_file_id, buf) ← readDeltaIds read file_count 0 buf
    let file_capacity := if file_count == 0 then 0 else last_file_id + 1
    let caps2 := caps.set id file_capacity
    let fids2 := if file_count != file_capacity then fids.set id (some file_ids) else fids
    readFileTables read rest counts caps2 fids2 buf

/-- The per-group file-name-hash loop of Js5Index::decode: for each group
id, read file-count signed hashes and store the list at that id. -/
def readFileNameHashes :
    List Nat → List Nat → List (List Int) → List Nat →
    Option (List (List Int) × List Nat)
  | [], _, acc, buf => some (acc, buf)
  | id :: rest, counts, acc, buf => do
    let file_count ← counts[id]?
    let (hashes, buf) ← readCount g4s file_count buf
    readFileNameHashes rest counts (acc.set id hashes) buf

/-- Decoded JS5 archive index (struct Js5Index, src/runetek5/js5/js5.rs).
The crc field is computed by an external crc32 library over the raw
compressed input and only optionally compared with an expected value; it is
not modelled, since it affects no decoded table and dropping the comparison
only enlarges the set of accepted inputs, over which the theorems
universally quantify. -/
structure Js5IndexModel where
  protocol : Nat
  version : Nat
  has_names : Bool
  has_whirlpool_hashes : Bool
  has_group_data_sizes : Bool
  has_uncompressed_checksums : Bool
  has_md5_hashes : Bool
  group_count : Nat
  group_capacity : Nat
  group_ids : List Nat
  group_name_hashes : Option (List Int)
  group_checksums : List Nat
  group_uncompressed_checksums : Option (List Nat)
  group_whirlpool_hashes : Option (List (List Nat))
  group_data_sizes : Option (List Nat)
  group_uncompressed_data_sizes : Option (List Nat)
  group_versions : List Nat
  group_file_counts : List Nat
  group_file_capacities : List Nat
  group_file_ids : List (Option (List Nat))
  group_file_name_hashes : Option (List (List Int))
  group_md5_hashes : Option (List (List Nat))
  deriving Repr, DecidableEq

/-- Choice of the protocol-dependent count reader of Js5Index::decode: the
smart 2-or-4 reader under protocol 7 (Smart), otherwise a plain 16-bit
read. -/
def js5IndexReader (protocol : Nat) : List Nat → Option (Nat × List Nat) :=
  if protocol == 7 then getSmart2or4 else g2

/-- The protocol-conditional version word of Js5Index::decode: read under
protocol 6 and above, otherwise 0. -/
def readVersionWord (protocol : Nat) (buf : List Nat) : Option (Nat × List Nat) :=
  if 6 ≤ protocol then g4 buf else pure (0, buf)

/-- Conditional table read of Js5Index::decode: when the flag is set,
scatter-read one entry per group into a capacity-sized array, otherwise
leave the table absent. -/
def readOptScatter {α : Type} (cond : Bool) (read : List Nat → Option (α × List Nat))
    (ids : List Nat) (init : List α) (buf : List Nat) :
    Option (Option (List α) × List Nat) :=
  if cond then do
    let (hs, buf) ← scatterRead read ids init buf
    pure (some hs, buf)
  else pure (none, buf)

/-- The paired size read of the data-size loop of Js5Index::decode. -/
def readSizePair (b : List Nat) : Option ((Nat × Nat) × List Nat) := do
  let (x, b) ← g4 b
  let (y, b) ← g4 b
  pure ((x, y), b)

/-- Conditional per-file name-hash read of Js5Index::decode. -/
def readOptFileNameHashes (cond : Bool) (ids counts : List Nat)
    (init : List (List Int)) (buf : List Nat) :
    Option (Option (List (List Int)) × List Nat) :=
  if cond then do
    let (fh, buf) ← readFileNameHashes ids counts init buf
    pure (some fh, buf)
  else pure (none, buf)

/-- Tables part of Js5Index::decode (src/runetek5/js5/js5.rs, lines
179-308): everything read after the delta-decoded group ids, assembling the
final index. The two data-size arrays, filled by one loop in the source,
are read as pairs and split when stored. -/
def js5IndexDecodeTail (protocol version flags group_count : Nat)
    (group_ids : List Nat) (group_capacity : Nat) (buf : List Nat) :
    Option Js5IndexModel := do
  let has_names := flags &&& 1 != 0
  let has_whirlpool_hashes := flags &&& 2 != 0
  let has_group_data_sizes := flags &&& 4 != 0
  let has_uncompressed_checksums := flags &&& 8 != 0
  let has_md5_hashes := flags &&& 128 != 0
  let read := js5IndexReader protocol
  let (group_name_hashes, buf) ←
    readOptScatter has_names g4s group_ids (List.replicate group_capacity (-1)) buf
  let (group_checksums, buf) ←
    scatterRead g4 group_ids (List.replicate group_capacity 0) buf
  let (group_uncompressed_checksums, buf) ←
    readOptScatter has_uncompressed_checksums g4 group_ids
      (List.replicate group_capacity 0) buf
  let (group_whirlpool_hashes, buf) ←
    readOptScatter has_whirlpool_hashes (readBytes 64) group_ids
      (List.replicate group_capacity (List.replicate 64 0)) buf
  let (group_size_pairs, buf) ←
    readOptScatter has_group_data_sizes readSizePair group_ids
      (List.replicate group_capacity (0, 0)) buf
  let (group_versions, buf) ←
    scatterRead g4 group_ids (List.replicate group_capacity 0) buf
  let (group_file_counts, buf) ←
    scatterRead read group_ids (List.replicate group_capacity 0) buf
  let (group_file_capacities, group_file_ids, buf) ←
    readFileTables read group_ids group_file_counts
      (List.replicate group_capacity 0) (List.replicate group_capacity none) buf
  let (group_file_name_hashes, buf) ←
    readOptFileNameHashes has_names group_ids group_file_counts
      (List.replicate group_capacity []) buf
  let (group_md5_hashes, _) ←
    readOptScatter has_md5_hashes (readBytes 16) group_ids
      (List.replicate group_capacity (List.replicate 16 0)) buf
  pure {
    protocol := protocol
    version := version
    has_names := has_names
    has_whirlpool_hashes := has_whirlpool_hashes
    has_group_data_sizes := has_group_data_sizes
    has_uncompressed_checksums := has_uncompressed_checksums
    has_md5_hashes := has_md5_hashes
    group_count := group_count
    group_capacity := group_capacity
    group_ids := group_ids
    group_name_hashes := group_name_hashes
    group_checksums := group_checksums
    group_uncompressed_checksums := group_uncompressed_checksums
    group_whirlpool_hashes := group_whirlpool_hashes
    group_data_sizes := group_size_pairs.map (fun ps => ps.map Prod.fst)
    group_uncompressed_data_sizes := group_size_pairs.map (fun ps => ps.map Prod.snd)
    group_versions := group_versions
    group_file_counts := group_file_counts
    group_file_capacities := group_file_capacities
    group_file_ids := group_file_ids
    group_file_name_hashes := group_file_name_hashes
    group_md5_hashes := group_md5_hashes }

/-- Js5Index::decode (src/runetek5/js5/js5.rs, lines 138-308) applied to
the decompressed index body: protocol byte (5, 6 or 7, otherwise a fatal
TryFrom error modelled as none), optional version word, flag byte,
protocol-dependent group count, delta-decoded group ids, the capacity rule,
then the tables. -/
def js5IndexDecode (body : List Nat) : Option Js5IndexModel := do
  let (protocol, buf) ← g1 body
  guard (protocol = 5 ∨ protocol = 6 ∨ protocol = 7)
  let (version, buf) ← readVersionWord protocol buf
  let (flags, buf) ← g1 buf
  let (group_count, buf) ← js5IndexReader protocol buf
  let (group_ids, last_group_id, buf) ←
    readDeltaIds (js5IndexReader protocol) group_count 0 buf
  let group_capacity := if group_count == 0 then 0 else last_group_id + 1
  js5IndexDecodeTail protocol version flags group_count group_ids group_capacity buf

/-- Shape of the delta-decoded id list: it has one id per delta, is
non-decreasing as a chain from the incoming running id, and the final
running id is its last element (or the incoming id when empty). -/
theorem readDeltaIds_spec (read : List Nat → Option (Nat × List Nat)) (n : Nat)
    (last : Nat) (buf : List Nat) (ids : List Nat) (lastF : Nat) (buf2 : List Nat)
    (h : readDeltaIds read n last buf = some (ids, lastF, buf2)) :
    ids.length = n ∧ List.Chain' (· ≤ ·) (last :: ids) ∧
      (ids = [] → lastF = last) ∧ (∀ l, ids.getLast? = some l → lastF = l) := by
  induction n generalizing last buf ids lastF buf2 with
  | zero =>
    simp only [readDeltaIds] at h
    obtain ⟨rfl, rfl, rfl⟩ := h
    simp
  | succ n ih =>
    simp only [readDeltaIds, Option.pure_def, Option.bind_eq_bind] at h
    rcases hr : read buf with _ | ⟨d, buf1⟩ <;> simp [hr] at h
    rcases hrest : readDeltaIds read n (last + d) buf1 with _ | ⟨ids1, lastF1, buf3⟩ <;>
      simp [hrest] at h
    obtain ⟨rfl, rfl, rfl⟩ := h
    obtain ⟨hlen, hchain, hnil, hlast⟩ := ih (last + d) buf1 ids1 lastF1 buf3 hrest
    refine ⟨by simp [hlen], ?_, by simp, ?_⟩
    · exact List.Chain'.cons (by omega) hchain
    · intro l hl
      rcases ids1 with _ | ⟨x, xs⟩
      · have := hnil rfl
        simp at hl
        omega
      · rw [List.getLast?_cons_cons] at hl
        exact hlast l hl

/-- A scatter loop never changes the length of the array it fills. -/
theorem scatterRead_length {α : Type} (read : List Nat → Option (α × List Nat))
    (ids : List Nat) (arr : List α) (buf : List Nat) (arr2 : List α) (buf2 : List Nat)
    (h : scatterRead read ids arr buf = some (arr2, buf2)) :
    arr2.length = arr.length := by
  induction ids generalizing arr buf with
  | nil =>
    simp only [scatterRead] at h
    obtain ⟨rfl, rfl⟩ := h
    rfl
  | cons id rest ih =>
    simp only [scatterRead, Option.bind_eq_bind] at h
    rcases hr : read buf with _ | ⟨v, buf1⟩ <;> simp [hr] at h
    calc arr2.length = (arr.set id v).length := ih (arr.set id v) buf1 h
    _ = arr.length := by simp

/-- Field tracking through the tables part of the index decode: the group
ids, capacity and count are stored unchanged, and the checksum table keeps
the capacity-sized length it was allocated with. -/
theorem js5IndexDecodeTail_fields (protocol version flags group_count : Nat)
    (group_ids : List Nat) (group_capacity : Nat) (buf : List Nat)
    (idx : Js5IndexModel)
    (h : js5IndexDecodeTail protocol version flags group_count group_ids group_capacity buf
      = some idx) :
    idx.group_ids = group_ids ∧ idx.group_capacity = group_capacity ∧
      idx.group_count = group_count ∧ idx.group_checksums.length = group_capacity := by
  unfold js5IndexDecodeTail at h
  obtain ⟨⟨nh, buf1⟩, hA, h⟩ := Option.bind_eq_some.mp h
  obtain ⟨⟨cks, buf2⟩, hB, h⟩ := Option.bind_eq_some.mp h
  obtain ⟨⟨uck, buf3⟩, hC, h⟩ := Option.bind_eq_some.mp h
  obtain ⟨⟨wph, buf4⟩, hD, h⟩ := Option.bind_eq_some.mp h
  obtain ⟨⟨szp, buf5⟩, hE, h⟩ := Option.bind_eq_some.mp h
  obtain ⟨⟨vers, buf6⟩, hF, h⟩ := Option.bind_eq_some.mp h
  obtain ⟨⟨fcs, buf7⟩, hG, h⟩ := Option.bind_eq_some.mp h
  obtain ⟨⟨fcap, fids, buf8⟩, hH, h⟩ := Option.bind_eq_some.mp h
  obtain ⟨⟨fnh, buf9⟩, hI, h⟩ := Option.bind_eq_some.mp h
  obtain ⟨⟨md5t, buf10⟩, hJ, h⟩ := Option.bind_eq_some.mp h
  obtain rfl := (Option.some.inj h).symm
  have hlen := scatterRead_length g4 group_ids (List.replicate group_capacity 0) buf1 cks buf2 hB
  refine ⟨rfl, rfl, rfl, ?_⟩
  simpa using hlen

/-- C6 (amended): for every index produced by Js5Index::decode from any
accepted input, group_ids is non-decreasing (the decoder accepts zero
deltas, so strict increase is not guaranteed), the checksum table length
equals group_capacity, group_ids has group_count entries, and
group_capacity is the last group id plus one, or 0 when group_count is
0. -/
theorem C6_index_invariants (body : List Nat) (idx : Js5IndexModel)
    (h : js5IndexDecode body = some idx) :
    List.Chain' (· ≤ ·) idx.group_ids ∧
      idx.group_checksums.length = idx.group_capacity ∧
      idx.group_ids.length = idx.group_count ∧
      (idx.group_count = 0 → idx.group_capacity = 0) ∧
      (∀ l, idx.group_ids.getLast? = some l → idx.group_capacity = l + 1) := by
  unfold js5IndexDecode at h
  obtain ⟨⟨protocol, buf1⟩, h1, h⟩ := Option.bind_eq_some.mp h
  obtain ⟨u, hg, h⟩ := Option.bind_eq_some.mp h
  obtain ⟨⟨version, buf2⟩, h2, h⟩ := Option.bind_eq_some.mp h
  obtain ⟨⟨flags, buf3⟩, h3, h⟩ := Option.bind_eq_some.mp h
  obtain ⟨⟨group_count, buf4⟩, h4, h⟩ := Option.bind_eq_some.mp h
  obtain ⟨⟨gids, lastg, buf5⟩, h5, h⟩ := Option.bind_eq_some.mp h
  obtain ⟨hids, hcap, hcount, hcks⟩ :=
    js5IndexDecodeTail_fields _ _ _ _ _ _ _ _ h
  obtain ⟨hlen, hchain, hnil, hlast⟩ := readDeltaIds_spec _ _ _ _ _ _ _ h5
  refine ⟨?_, ?_, ?_, ?_, ?_⟩
  · rw [hids]
    exact hchain.tail
  · rw [hcks, hcap]
  · rw [hids, hcount]
    exact hlen
  · intro h0
    rw [hcap]
    rw [hcount] at h0
    simp [h0]
  · intro l hl
    rw [hids] at hl
    have hne : gids ≠ [] := by
      intro hEq
      rw [hEq] at hl
      simp at hl
    have hcz : group_count ≠ 0 := by
      intro hEq
      rw [hEq] at hlen
      exact hne (List.length_eq_zero.mp hlen)
    rw [hcap]
    have := hlast l hl
    simp only [beq_iff_eq, if_neg hcz]
    omega

/-- Concrete decompressed index body exercised by the C6 counterexample
and witness: protocol 5, no flags, two groups, both id deltas zero. -/
def c6Body : List Nat :=
  [5, 0, 0, 2, 0, 0, 0, 0, 1, 2, 3, 4, 5, 6, 7, 8, 0, 0, 0, 1, 0, 0, 0, 2, 0, 0, 0, 0]

/-- The index decoded from c6Body. -/
def c6Index : Js5IndexModel where
  protocol := 5
  version := 0
  has_names := false
  has_whirlpool_hashes := false
  has_group_data_sizes := false
  has_uncompressed_checksums := false
  has_md5_hashes := false
  group_count := 2
  group_capacity := 1
  group_ids := [0, 0]
  group_name_hashes := none
  group_checksums := [84281096]
  group_uncompressed_checksums := none
  group_whirlpool_hashes := none
  group_data_sizes := none
  group_uncompressed_data_sizes := none
  group_versions := [2]
  group_file_counts := [0]
  group_file_capacities := [0]
  group_file_ids := [none]
  group_file_name_hashes := none
  group_md5_hashes := none

/-- Witness for C6 at the concrete body with two equal group ids. -/
theorem C6_index_invariants_witness :
    List.Chain' (· ≤ ·) c6Index.group_ids ∧
      c6Index.group_checksums.length = c6Index.group_capacity ∧
      c6Index.group_ids.length = c6Index.group_count ∧
      (c6Index.group_count = 0 → c6Index.group_capacity = 0) ∧
      (∀ l, c6Index.group_ids.getLast? = some l → c6Index.group_capacity = l + 1) :=
  C6_index_invariants c6Body c6Index (by decide)

/-- Counterexample to C6 as stated: the decoder accepts a body whose two
id deltas are both zero, producing group_ids = [0, 0], which is not
strictly increasing. -/
theorem C6_counterexample :
    (js5IndexDecode c6Body).map Js5IndexModel.group_ids = some [0, 0] ∧
      ¬ List.Chain' (fun a b => a < b) [0, 0] := by
  constructor
  · rfl
  · simp

/-- Reinterpretation of a u16 value as a signed i16, modelling the
`as i16` cast of the running textured-triangle count in
copy_texture_coords. -/
def i16ofU16 (v : Nat) : Int :=
  if v % 65536 < 32768 then ((v % 65536 : Nat) : Int) else ((v % 65536 : Nat) : Int) - 65536

/-- The fields of struct ModelUnlit (src/runetek5/graphics/model.rs, lines
82-106) read by the merge texture-coordinate pass and by the lit-mesh
builder. The vertex coordinate arrays and the complex texture-mapping data
feed only the floating-point UV and normal values, which no claim here
depends on, and are left out; texture_props is represented by its
per-mapping render-type list, the only part these passes inspect. -/
structure MUnlit where
  triangle_count : Nat
  textured_triangle_count : Nat
  used_vertex_count : Nat
  triangle_a : List Nat
  triangle_b : List Nat
  triangle_c : List Nat
  triangle_render_type : Option (List Nat)
  triangle_transparency : Option (List Nat)
  triangle_material : Option (List Int)
  triangle_texture_coords : Option (List Int)
  triangle_priority : Option (List Nat)
  texture_props_types : Option (List Nat)
  deriving Repr, DecidableEq

/-- The rebase applied by copy_texture_coords to one coordinate value: a
value in [0, 32766) is shifted by the base, anything else is copied. -/
def rebaseCoord (base : Int) (coord : Int) : Int :=
  if 0 ≤ coord ∧ coord < 32766 then base + coord else coord

/-- The inner loop of ModelUnlit::copy_texture_coords (model.rs, lines
437-446): walk the source coordinates in order, writing the rebased value
at the running write cursor. -/
def copyCoordsLoop (base : Int) : List Int → Nat × List Int → Nat × List Int
  | [], st => st
  | coord :: rest, (tcc, dst) =>
    copyCoordsLoop base rest (tcc + 1, dst.set tcc (rebaseCoord base coord))

/-- ModelUnlit::copy_texture_coords (model.rs, lines 425-447): when the
source model has no texture-coord array, nothing is copied and the write
cursor does not advance; otherwise its triangle_count coordinates are
copied with the rebase. -/
def copy_texture_coords (textured_triangle_count : Nat) (st : Nat × List Int)
    (model : MUnlit) : Nat × List Int :=
  match model.triangle_texture_coords with
  | none => st
  | some src =>
    copyCoordsLoop (i16ofU16 textured_triangle_count) (src.take model.triangle_count) st

/-- The texture-coordinate pass of ModelUnlit::merge (model.rs, lines
262-298): the merged array exists when any source has one, starts as -1
over the summed triangle count, and is filled per source model in order by
copy_texture_coords, while the running textured-triangle base advances by
the textured count of each source that has a mapping table (and only while
the merged mesh has textured triangles at all). -/
def mergeTextureCoords (models : List MUnlit) : Option (List Int) :=
  let triangle_count := (models.map (fun m => m.triangle_count)).sum
  let textured_total := (models.map (fun m => m.textured_triangle_count)).sum
  let has_texture_coord := models.any (fun m => m.triangle_texture_coords.isSome)
  if has_texture_coord then
    some ((models.foldl
      (fun (st : Nat × Nat × List Int) model =>
        let (ttc, tcc, dst) := st
        let (tcc2, dst2) := copy_texture_coords ttc (tcc, dst) model
        let ttc2 := if 0 < textured_total ∧ model.texture_props_types.isSome
          then ttc + model.textured_triangle_count else ttc
        (ttc2, tcc2, dst2))
      (0, 0, List.replicate triangle_count (-1))).2.2)
  else none

/-- The merged texture-coord contents the claim describes: the
concatenation, over source models in order, of each coordinate array with
values in [0, 32766) rebased by the number of textured triangles of all
earlier sources. -/
def mergedCoordsSpec : Nat → List MUnlit → List Int
  | _, [] => []
  | base, m :: rest =>
    ((m.triangle_texture_coords.getD []).take m.triangle_count).map
        (rebaseCoord (base : Int))
      ++ mergedCoordsSpec (base + m.textured_triangle_count) rest

/-- The u16-to-i16 cast is the identity below 32768. -/
theorem i16ofU16_eq (v : Nat) (h : v < 32768) : i16ofU16 v = v := by
  unfold i16ofU16
  rw [Nat.mod_eq_of_lt (by omega)]
  simp [h]

/-- Writing one source coordinate array into the shared destination: when
the destination is untouched padding from the cursor on, the loop appends
the rebased block and advances the cursor by the block length. -/
theorem copyCoordsLoop_append (base : Int) (src : List Int) :
    ∀ (pre : List Int) (pad : Nat), src.length ≤ pad →
    copyCoordsLoop base src (pre.length, pre ++ List.replicate pad (-1))
      = (pre.length + src.length,
         pre ++ src.map (rebaseCoord base) ++ List.replicate (pad - src.length) (-1)) := by
  induction src with
  | nil =>
    intro pre pad _
    simp [copyCoordsLoop]
  | cons c rest ih =>
    intro pre pad hlen
    rcases pad with _ | pad
    · simp at hlen
    simp only [copyCoordsLoop]
    have hset : (pre ++ List.replicate (pad + 1) (-1 : Int)).set pre.length (rebaseCoord base c)
        = (pre ++ [rebaseCoord base c]) ++ List.replicate pad (-1) := by
      rw [List.set_append]
      simp [List.replicate_succ]
    rw [hset]
    rw [show pre.length + 1 = (pre ++ [rebaseCoord base c]).length by simp]
    rw [ih (pre ++ [rebaseCoord base c]) pad (by simpa using hlen)]
    have harith : pad + 1 - (rest.length + 1) = pad - rest.length := by omega
    simp only [Prod.mk.injEq, List.length_append, List.length_cons, List.length_map,
      List.map_cons, harith]
    constructor
    · simp
      omega
    · rw [List.append_assoc pre, List.singleton_append]

/-- The merge loop over source models: starting with the cursor at the end
of an already-written prefix and untouched padding behind it, processing
the models appends exactly the rebased concatenation the claim describes,
provided every source carries a texture-coord array of the right length,
the mapping table is present exactly for sources with textured triangles,
every textured count is bounded by the merged total, and the running base
stays inside i16 range. -/
theorem mergeFold_spec (tt : Nat) (models : List MUnlit)
    (hc : ∀ m ∈ models, ∃ src, m.triangle_texture_coords = some src ∧
      src.length = m.triangle_count)
    (hp : ∀ m ∈ models, m.texture_props_types.isSome ↔ 0 < m.textured_triangle_count)
    (htt : ∀ m ∈ models, m.textured_triangle_count ≤ tt) :
    ∀ (base : Nat) (pre : List Int) (pad : Nat),
      (models.map (fun m => m.triangle_count)).sum ≤ pad →
      base + (models.map (fun m => m.textured_triangle_count)).sum < 32768 →
      models.foldl
        (fun (st : Nat × Nat × List Int) model =>
          let (ttc, tcc, dst) := st
          let (tcc2, dst2) := copy_texture_coords ttc (tcc, dst) model
          let ttc2 := if 0 < tt ∧ model.texture_props_types.isSome
            then ttc + model.textured_triangle_count else ttc
          (ttc2, tcc2, dst2))
        (base, pre.length, pre ++ List.replicate pad (-1))
        = (base + (models.map (fun m => m.textured_triangle_count)).sum,
           pre.length + (models.map (fun m => m.triangle_count)).sum,
           pre ++ mergedCoordsSpec base models
             ++ List.replicate (pad - (models.map (fun m => m.triangle_count)).sum) (-1)) := by
  induction models with
  | nil =>
    intro base pre pad _ _
    simp [mergedCoordsSpec]
  | cons m rest ih =>
    intro base pre pad hpad hbound
    obtain ⟨src, hsrc, hsrclen⟩ := hc m (List.mem_cons_self m rest)
    simp only [List.map_cons, List.sum_cons] at hpad hbound ⊢
    simp only [List.foldl_cons]
    have hcopy : copy_texture_coords base (pre.length, pre ++ List.replicate pad (-1)) m
        = (pre.length + m.triangle_count,
           pre ++ src.map (rebaseCoord (base : Int))
             ++ List.replicate (pad - m.triangle_count) (-1)) := by
      unfold copy_texture_coords
      rw [hsrc]
      dsimp only
      rw [show src.take m.triangle_count = src by rw [← hsrclen]; exact List.take_length src]
      rw [i16ofU16_eq base (by omega)]
      rw [copyCoordsLoop_append (base : Int) src pre pad (by omega)]
      rw [hsrclen]
    have httc2 : (if 0 < tt ∧ m.texture_props_types.isSome
        then base + m.textured_triangle_count else base)
        = base + m.textured_triangle_count := by
      rcases Nat.eq_zero_or_pos m.textured_triangle_count with hz | hpos
      · rw [hz]
        split_ifs <;> omega
      · have hps : m.texture_props_types.isSome :=
          ((hp m (List.mem_cons_self m rest)).mpr hpos)
        have h0 : 0 < tt := lt_of_lt_of_le hpos (htt m (List.mem_cons_self m rest))
        simp [hps, h0]
    simp only [hcopy, httc2]
    rw [show pre.length + m.triangle_count
        = (pre ++ src.map (rebaseCoord (base : Int))).length by simp [hsrclen]]
    rw [show pre ++ src.map (rebaseCoord (base : Int))
          ++ List.replicate (pad - m.triangle_count) (-1)
        = (pre ++ src.map (rebaseCoord (base : Int)))
          ++ List.replicate (pad - m.triangle_count) (-1) from rfl]
    rw [ih (fun x hx => hc x (List.mem_cons_of_mem m hx))
      (fun x hx => hp x (List.mem_cons_of_mem m hx))
      (fun x hx => htt x (List.mem_cons_of_mem m hx))
      (base + m.textured_triangle_count)
      (pre ++ src.map (rebaseCoord (base : Int)))
      (pad - m.triangle_count) (by omega) (by omega)]
    simp only [Prod.mk.injEq, List.length_append, List.length_map]
    refine ⟨by omega, by omega, ?_⟩
    simp only [mergedCoordsSpec, hsrc, Option.getD_some]
    rw [show src.take m.triangle_count = src by rw [← hsrclen]; exact List.take_length src]
    rw [List.append_assoc pre]
    congr 2
    omega

/-- Length of the claimed merged texture-coord contents: one slot per
source triangle. -/
theorem mergedCoordsSpec_length (models : List MUnlit)
    (hc : ∀ m ∈ models, ∃ src, m.triangle_texture_coords = some src ∧
      src.length = m.triangle_count) :
    ∀ base, (mergedCoordsSpec base models).length
      = (models.map (fun m => m.triangle_count)).sum := by
  induction models with
  | nil => intro base; simp [mergedCoordsSpec]
  | cons m rest ih =>
    intro base
    obtain ⟨src, hsrc, hsrclen⟩ := hc m (List.mem_cons_self m rest)
    simp only [mergedCoordsSpec, hsrc, Option.getD_some, List.length_append,
      List.length_map, List.length_take, List.map_cons, List.sum_cons]
    rw [ih (fun x hx => hc x (List.mem_cons_of_mem m hx)) (base + m.textured_triangle_count)]
    omega

/-- C8 (amended): in ModelUnlit::merge of a non-empty model list in which
every source model carries a texture-coord array of length triangle_count,
has its mapping table exactly when it has textured triangles, and whose
total textured-triangle count is below 32768, the merged texture-coord
array is the concatenation, in merged triangle order, of the source arrays
with every value in [0, 32766) rebased by the number of textured triangles
contributed by all earlier sources, while -1, 32766 and every other
out-of-range value pass through unchanged. -/
theorem C8_merge_texture_coords (models : List MUnlit) (hne : models ≠ [])
    (hc : ∀ m ∈ models, ∃ src, m.triangle_texture_coords = some src ∧
      src.length = m.triangle_count)
    (hp : ∀ m ∈ models, m.texture_props_types.isSome ↔ 0 < m.textured_triangle_count)
    (hbound : (models.map (fun m => m.textured_triangle_count)).sum < 32768) :
    mergeTextureCoords models = some (mergedCoordsSpec 0 models) ∧
      (mergedCoordsSpec 0 models).length
        = (models.map (fun m => m.triangle_count)).sum := by
  refine ⟨?_, mergedCoordsSpec_length models hc 0⟩
  unfold mergeTextureCoords
  have hany : models.any (fun m => m.triangle_texture_coords.isSome) = true := by
    rcases models with _ | ⟨m, rest⟩
    · exact absurd rfl hne
    obtain ⟨src, hsrc, -⟩ := hc m (List.mem_cons_self m rest)
    simp [hsrc]
  simp only [hany, if_pos]
  have hfold := mergeFold_spec
    ((models.map (fun m => m.textured_triangle_count)).sum) models hc hp
    (fun m hm => List.le_sum_of_mem (List.mem_map_of_mem (fun m => m.textured_triangle_count) hm))
    0 [] ((models.map (fun m => m.triangle_count)).sum) (le_refl _) (by omega)
  simp only [List.length_nil, List.nil_append] at hfold
  rw [hfold]
  simp

/-- First witness model for C8: one triangle, one textured triangle, a
mapping table, and coordinate value 7. -/
def c8w0 : MUnlit :=
  ⟨1, 1, 0, [], [], [], none, none, none, some [7], none, some [0]⟩

/-- Second witness model for C8: one triangle, no textured triangles, and
the per-vertex sentinel -1 as coordinate. -/
def c8w1 : MUnlit :=
  ⟨1, 0, 0, [], [], [], none, none, none, some [-1], none, none⟩

/-- Witness for C8 at a concrete two-model merge. -/
theorem C8_merge_texture_coords_witness :
    mergeTextureCoords [c8w0, c8w1] = some (mergedCoordsSpec 0 [c8w0, c8w1]) ∧
      (mergedCoordsSpec 0 [c8w0, c8w1]).length
        = ([c8w0, c8w1].map (fun m => m.triangle_count)).sum :=
  C8_merge_texture_coords [c8w0, c8w1] (by decide)
    (by
      intro m hm
      simp only [List.mem_cons, List.not_mem_nil, or_false] at hm
      rcases hm with rfl | rfl
      · exact ⟨[7], rfl, rfl⟩
      · exact ⟨[-1], rfl, rfl⟩)
    (by
      intro m hm
      simp only [List.mem_cons, List.not_mem_nil, or_false] at hm
      rcases hm with rfl | rfl <;> simp [c8w0, c8w1])
    (by decide)

/-- First counterexample model for C8: one triangle, no texture-coord
array at all. -/
def c8m0 : MUnlit :=
  ⟨1, 0, 0, [], [], [], none, none, none, none, none, none⟩

/-- Second counterexample model for C8: one triangle with coordinate value
5. -/
def c8m1 : MUnlit :=
  ⟨1, 0, 0, [], [], [], none, none, none, some [5], none, none⟩

/-- Counterexample to C8 as stated: when the first source model has no
texture-coord array, the write cursor does not advance past its triangle,
so the coordinate 5 of the second model ends up at merged position 0
instead of at the position 1 of its triangle in the merged order, which
still holds the initial -1. -/
theorem C8_counterexample :
    mergeTextureCoords [c8m0, c8m1] = some [5, -1] ∧
      ([5, -1] : List Int).getD 1 0 ≠ 5 := by
  exact ⟨by decide, by decide⟩

/-- One chunk of the first pass of Js5::unpack_group
(src/runetek5/js5/js5.rs, lines 546-552): for each file in order, read a
signed delta into the running file size and add that running size to the
per-file total. The totals are processed positionally as a list. -/
def sizePassChunk (fs : Int) : List Int → List Nat → Option (List Int × Int × List Nat)
  | [], meta => some ([], fs, meta)
  | s :: sizes, meta => do
    let (d, meta) ← g4s meta
    let fs2 := fs + d
    let (sizes2, fsF, meta2) ← sizePassChunk fs2 sizes meta
    pure ((s + fs2) :: sizes2, fsF, meta2)

/-- The chunk loop of the first pass: the running file size restarts at 0
for every chunk. -/
def sizePass : Nat → List Int → List Nat → Option (List Int × List Nat)
  | 0, sizes, meta => some (sizes, meta)
  | n + 1, sizes, meta => do
    let (sizes2, _, meta2) ← sizePassChunk 0 sizes meta
    sizePass n sizes2 meta2

/-- Slice of the leading file_size bytes of the remaining payload, as in
the expression data_buf[..file_size as usize] followed by the skip: a
negative size (a huge usize after the cast) or a size past the end of the
buffer panics in the source and is none here. -/
def takeBytes (n : Int) (data : List Nat) : Option (List Nat × List Nat) :=
  if 0 ≤ n ∧ n.toNat ≤ data.length then some (data.take n.toNat, data.drop n.toNat)
  else none

/-- One chunk of the second pass of Js5::unpack_group (js5.rs, lines
564-572): re-read the deltas, and for each file in order append the next
running-size-many payload bytes to that file. -/
def dataPassChunk (fs : Int) :
    List (List Nat) → List Nat → List Nat →
    Option (List (List Nat) × Int × List Nat × List Nat)
  | [], meta, data => some ([], fs, meta, data)
  | f :: files, meta, data => do
    let (d, meta) ← g4s meta
    let fs2 := fs + d
    let (chunk, data) ← takeBytes fs2 data
    let (files2, fsF, metaF, dataF) ← dataPassChunk fs2 files meta data
    pure ((f ++ chunk) :: files2, fsF, metaF, dataF)

/-- The chunk loop of the second pass. -/
def dataPass : Nat → List (List Nat) → List Nat → List Nat →
    Option (List (List Nat) × List Nat × List Nat)
  | 0, files, meta, data => some (files, meta, data)
  | n + 1, files, meta, data => do
    let (files2, _, meta2, data2) ← dataPassChunk 0 files meta data
    dataPass n files2 meta2 data2

/-- The multi-file branch of Js5::unpack_group (js5.rs, lines 540-581): the
last byte of the decompressed blob is the chunk count, the metadata region
of file_count times chunks times 4 bytes precedes it, the first pass
accumulates the per-file sizes (used in the source only to reserve
capacity), and the second pass re-reads the metadata while splitting the
payload in chunk-major, file-minor order. -/
def unpackMulti (decompressed : List Nat) (file_count : Nat) :
    Option (List (List Nat)) := do
  let length := decompressed.length
  let chunks ← decompressed.getLast?
  guard (file_count * chunks * 4 + 1 ≤ length)
  let meta := decompressed.drop (length - 1 - file_count * chunks * 4)
  let (file_sizes, _) ← sizePass chunks (List.replicate file_count 0) meta
  let meta2 := decompressed.drop (length - 1 - file_count * chunks * 4)
  let (files, _, _) ← dataPass chunks (file_sizes.map (fun _ => [])) meta2 decompressed
  pure files

/-- Proposition that a metadata region starts with the byte encodings of
the given signed deltas, in order, leaving the given rest. -/
def ParsesDeltas : List Int → List Nat → List Nat → Prop
  | [], meta, rest => meta = rest
  | d :: ds, meta, rest => ∃ meta2, g4s meta = some (d, meta2) ∧ ParsesDeltas ds meta2 rest

/-- Chunk-wise version of ParsesDeltas. -/
def ParsesChunks : List (List Int) → List Nat → List Nat → Prop
  | [], meta, rest => meta = rest
  | ds :: dss, meta, rest => ∃ meta2, ParsesDeltas ds meta meta2 ∧ ParsesChunks dss meta2 rest

/-- Proposition that the segments of one chunk have exactly the running
prefix-sum sizes determined by the deltas of that chunk. -/
def SegSizes (fs : Int) : List Int → List (List Nat) → Prop
  | [], [] => True
  | d :: ds, seg :: segs => (seg.length : Int) = fs + d ∧ SegSizes (fs + d) ds segs
  | _, _ => False

/-- Running prefix sums of a delta list from a start value. -/
def prefixSums (fs : Int) : List Int → List Int
  | [] => []
  | d :: ds => (fs + d) :: prefixSums (fs + d) ds

/-- The file sizes the claim describes: per file, the sum over chunks of
the running prefix sum of that chunk up to the file. -/
def specFileSizes (fc : Nat) (dss : List (List Int)) : List Int :=
  dss.foldl (fun acc ds => List.zipWith (fun s p => s + p) acc (prefixSums 0 ds))
    (List.replicate fc 0)

/-- The file contents the claim describes: per file, the concatenation of
its segment from every chunk, in chunk order. -/
def specFiles (fc : Nat) (segss : List (List (List Nat))) : List (List Nat) :=
  segss.foldl (fun acc segs => List.zipWith (fun f s => f ++ s) acc segs)
    (List.replicate fc [])

/-- A signed 32-bit read consumes exactly four bytes. -/
theorem g4s_length (meta rest : List Nat) (v : Int) (h : g4s meta = some (v, rest)) :
    meta.length = rest.length + 4 := by
  rcases meta with _ | ⟨a, _ | ⟨b, _ | ⟨c, _ | ⟨d, m⟩⟩⟩⟩ <;>
    simp [g4s, g4, g2, g1] at h
  obtain ⟨-, rfl⟩ := h
  simp

/-- Parsing a delta list consumes four bytes per delta. -/
theorem ParsesDeltas_length (ds : List Int) :
    ∀ (meta rest : List Nat), ParsesDeltas ds meta rest →
      meta.length = 4 * ds.length + rest.length := by
  induction ds with
  | nil =>
    intro meta rest h
    rw [h]
    simp
  | cons d ds ih =>
    intro meta rest h
    obtain ⟨meta2, hg, hrest⟩ := h
    have h1 := g4s_length meta meta2 d hg
    have h2 := ih meta2 rest hrest
    simp only [List.length_cons]
    omega

/-- Parsing the chunked metadata consumes four bytes per delta of every
chunk. -/
theorem ParsesChunks_length (dss : List (List Int)) :
    ∀ (meta rest : List Nat), ParsesChunks dss meta rest →
      meta.length = 4 * (dss.map (fun ds => ds.length)).sum + rest.length := by
  induction dss with
  | nil =>
    intro meta rest h
    rw [h]
    simp
  | cons ds dss ih =>
    intro meta rest h
    obtain ⟨meta2, hd, hrest⟩ := h
    have h1 := ParsesDeltas_length ds meta meta2 hd
    have h2 := ih meta2 rest hrest
    simp only [List.map_cons, List.sum_cons]
    omega

/-- Length of the prefix-sum list. -/
theorem prefixSums_length (ds : List Int) : ∀ fs, (prefixSums fs ds).length = ds.length := by
  induction ds with
  | nil => intro fs; rfl
  | cons d ds ih =>
    intro fs
    simp [prefixSums, ih]

/-- One size chunk accumulates the prefix sums of its deltas into the
per-file totals and finishes with the chunk sum as the running size. -/
theorem sizePassChunk_spec (ds : List Int) :
    ∀ (fs : Int) (sizes : List Int) (meta rest : List Nat),
    ParsesDeltas ds meta rest → sizes.length = ds.length →
    sizePassChunk fs sizes meta
      = some (List.zipWith (fun s p => s + p) sizes (prefixSums fs ds), fs + ds.sum, rest) := by
  induction ds with
  | nil =>
    intro fs sizes meta rest hparse hlen
    rcases sizes with _ | ⟨s, sizes⟩
    · rw [hparse]
      simp [sizePassChunk, prefixSums]
    · simp at hlen
  | cons d ds ih =>
    intro fs sizes meta rest hparse hlen
    rcases sizes with _ | ⟨s, sizes⟩
    · simp at hlen
    obtain ⟨meta2, hg, hrest⟩ := hparse
    simp only [sizePassChunk, Option.bind_eq_bind, Option.pure_def, hg, Option.some_bind]
    rw [ih (fs + d) sizes meta2 rest hrest (by simpa using hlen)]
    simp [prefixSums, add_assoc]

/-- The whole first pass folds the per-chunk prefix-sum contributions into
the totals, consuming exactly the metadata. -/
theorem sizePass_spec (dss : List (List Int)) :
    ∀ (sizes : List Int) (meta rest : List Nat),
    ParsesChunks dss meta rest → (∀ ds ∈ dss, ds.length = sizes.length) →
    sizePass dss.length sizes meta
      = some (dss.foldl (fun acc ds => List.zipWith (fun s p => s + p) acc (prefixSums 0 ds))
          sizes, rest) := by
  induction dss with
  | nil =>
    intro sizes meta rest hparse _
    rw [hparse]
    rfl
  | cons ds dss ih =>
    intro sizes meta rest hparse hlen
    obtain ⟨meta2, hd, hrest⟩ := hparse
    simp only [List.length_cons, sizePass, Option.bind_eq_bind]
    rw [sizePassChunk_spec ds 0 sizes meta meta2 hd
      (hlen ds (List.mem_cons_self ds dss)).symm]
    simp only [Option.some_bind, zero_add]
    rw [ih (List.zipWith (fun s p => s + p) sizes (prefixSums 0 ds)) meta2 rest hrest ?_]
    · simp
    · intro x hx
      rw [List.length_zipWith, prefixSums_length, hlen ds (List.mem_cons_self ds dss)]
      simp [hlen x (List.mem_cons_of_mem ds hx)]

/-- SegSizes relates delta and segment lists of equal length. -/
theorem SegSizes_length (ds : List Int) :
    ∀ (fs : Int) (segs : List (List Nat)), SegSizes fs ds segs →
      segs.length = ds.length := by
  induction ds with
  | nil =>
    intro fs segs h
    rcases segs with _ | ⟨seg, segs⟩
    · rfl
    · simp [SegSizes] at h
  | cons d ds ih =>
    intro fs segs h
    rcases segs with _ | ⟨seg, segs⟩
    · simp [SegSizes] at h
    · obtain ⟨-, hrest⟩ := h
      simp [ih (fs + d) segs hrest]

/-- One data chunk appends, for each file in order, its prefix-sum-sized
segment of the remaining payload, consuming exactly the joined segments
and the metadata of the chunk. -/
theorem dataPassChunk_spec (ds : List Int) :
    ∀ (fs : Int) (files segs : List (List Nat)) (meta rest dataRest : List Nat),
    ParsesDeltas ds meta rest → SegSizes fs ds segs → files.length = ds.length →
    dataPassChunk fs files meta (segs.flatten ++ dataRest)
      = some (List.zipWith (fun f s => f ++ s) files segs, fs + ds.sum, rest, dataRest) := by
  induction ds with
  | nil =>
    intro fs files segs meta rest dataRest hparse hsz hflen
    rcases segs with _ | ⟨seg, segs⟩
    · rcases files with _ | ⟨f, files⟩
      · rw [hparse]
        simp [dataPassChunk]
      · simp at hflen
    · simp [SegSizes] at hsz
  | cons d ds ih =>
    intro fs files segs meta rest dataRest hparse hsz hflen
    rcases segs with _ | ⟨seg, segs⟩
    · simp [SegSizes] at hsz
    rcases files with _ | ⟨f, files⟩
    · simp at hflen
    obtain ⟨hseglen, hrest⟩ := hsz
    obtain ⟨meta2, hg, hp⟩ := hparse
    simp only [dataPassChunk, Option.bind_eq_bind, Option.pure_def, hg, Option.some_bind]
    have htake : takeBytes (fs + d) (List.flatten (seg :: segs) ++ dataRest)
        = some (seg, segs.flatten ++ dataRest) := by
      unfold takeBytes
      have hnat : (fs + d).toNat = seg.length := by omega
      have hnn : 0 ≤ fs + d := by omega
      rw [if_pos ?_]
      · rw [hnat]
        rw [List.flatten_cons, List.append_assoc]
        rw [List.take_left, List.drop_left]
      · constructor
        · exact hnn
        · rw [hnat, List.flatten_cons, List.append_assoc]
          simp
    rw [htake]
    simp only [Option.some_bind]
    rw [ih (fs + d) files segs meta2 rest dataRest hp hrest (by simpa using hflen)]
    simp [add_assoc]

/-- The whole second pass splits the payload in chunk-major, file-minor
order, appending every segment to its file across the chunks. -/
theorem dataPass_spec (dss : List (List Int)) :
    ∀ (segss : List (List (List Nat))) (files : List (List Nat))
      (meta rest dataRest : List Nat),
    ParsesChunks dss meta rest → List.Forall₂ (SegSizes 0) dss segss →
    (∀ ds ∈ dss, ds.length = files.length) →
    dataPass dss.length files meta
        ((segss.map (fun segs => segs.flatten)).flatten ++ dataRest)
      = some (segss.foldl (fun acc segs => List.zipWith (fun f s => f ++ s) acc segs) files,
          rest, dataRest) := by
  induction dss with
  | nil =>
    intro segss files meta rest dataRest hparse hf _
    cases hf
    rw [hparse]
    rfl
  | cons ds dss ih =>
    intro segss files meta rest dataRest hparse hf hlen
    rcases hf with _ | ⟨hsz, hfrest⟩
    rename_i segs segss
    obtain ⟨meta2, hd, hp⟩ := hparse
    simp only [List.length_cons, dataPass, Option.bind_eq_bind, List.map_cons, List.flatten_cons,
      List.append_assoc]
    rw [dataPassChunk_spec ds 0 files segs meta meta2
      ((segss.map (fun segs => segs.flatten)).flatten ++ dataRest) hd hsz
      (hlen ds (List.mem_cons_self ds dss)).symm]
    simp only [Option.some_bind]
    rw [ih segss (List.zipWith (fun f s => f ++ s) files segs) meta2 rest dataRest hp hfrest ?_]
    · simp
    · intro x hx
      have h1 := SegSizes_length ds 0 segs hsz
      have h2 := hlen ds (List.mem_cons_self ds dss)
      have h3 := hlen x (List.mem_cons_of_mem ds hx)
      rw [List.length_zipWith]
      omega

/-- The size fold keeps the file-count length. -/
theorem foldZipAdd_length (fc : Nat) (dss : List (List Int))
    (hl : ∀ ds ∈ dss, ds.length = fc) :
    ∀ acc : List Int, acc.length = fc →
      (dss.foldl (fun acc ds => List.zipWith (fun s p => s + p) acc (prefixSums 0 ds))
        acc).length = fc := by
  induction dss with
  | nil => intro acc hacc; simpa using hacc
  | cons ds dss ih =>
    intro acc hacc
    simp only [List.foldl_cons]
    apply ih (fun x hx => hl x (List.mem_cons_of_mem ds hx))
    rw [List.length_zipWith, prefixSums_length, hl ds (List.mem_cons_self ds dss), hacc]
    simp

/-- Per-file value of the size fold: the start value plus the sum over
chunks of that file's prefix sum. -/
theorem foldZipAdd_getD (fc : Nat) (dss : List (List Int))
    (hl : ∀ ds ∈ dss, ds.length = fc) :
    ∀ acc : List Int, acc.length = fc → ∀ j, j < fc →
      (dss.foldl (fun acc ds => List.zipWith (fun s p => s + p) acc (prefixSums 0 ds))
          acc).getD j 0
        = acc.getD j 0 + (dss.map (fun ds => (prefixSums 0 ds).getD j 0)).sum := by
  induction dss with
  | nil => intro acc hacc j hj; simp
  | cons ds dss ih =>
    intro acc hacc j hj
    simp only [List.foldl_cons, List.map_cons, List.sum_cons]
    have hplen : (prefixSums 0 ds).length = fc := by
      rw [prefixSums_length, hl ds (List.mem_cons_self ds dss)]
    have hzlen : (List.zipWith (fun s p => s + p) acc (prefixSums 0 ds)).length = fc := by
      rw [List.length_zipWith, hacc, hplen]
      simp
    rw [ih (fun x hx => hl x (List.mem_cons_of_mem ds hx)) _ hzlen j hj]
    have hz : (List.zipWith (fun s p => s + p) acc (prefixSums 0 ds)).getD j 0
        = acc.getD j 0 + (prefixSums 0 ds).getD j 0 := by
      rw [List.getD_eq_getElem _ _ (by omega), List.getD_eq_getElem _ _ (by omega),
        List.getD_eq_getElem _ _ (by omega), List.getElem_zipWith]
    rw [hz]
    ring

/-- The content fold keeps the file-count length. -/
theorem foldZipApp_length (fc : Nat) (segss : List (List (List Nat)))
    (hl : ∀ segs ∈ segss, segs.length = fc) :
    ∀ acc : List (List Nat), acc.length = fc →
      (segss.foldl (fun acc segs => List.zipWith (fun f s => f ++ s) acc segs)
        acc).length = fc := by
  induction segss with
  | nil => intro acc hacc; simpa using hacc
  | cons segs segss ih =>
    intro acc hacc
    simp only [List.foldl_cons]
    apply ih (fun x hx => hl x (List.mem_cons_of_mem segs hx))
    rw [List.length_zipWith, hl segs (List.mem_cons_self segs segss), hacc]
    simp

/-- Per-file value of the content fold: the start value followed by that
file's segment from every chunk in chunk order. -/
theorem foldZipApp_getD (fc : Nat) (segss : List (List (List Nat)))
    (hl : ∀ segs ∈ segss, segs.length = fc) :
    ∀ acc : List (List Nat), acc.length = fc → ∀ j, j < fc →
      (segss.foldl (fun acc segs => List.zipWith (fun f s => f ++ s) acc segs)
          acc).getD j []
        = acc.getD j [] ++ (segss.map (fun segs => segs.getD j [])).flatten := by
  induction segss with
  | nil => intro acc hacc j hj; simp
  | cons segs segss ih =>
    intro acc hacc j hj
    simp only [List.foldl_cons, List.map_cons, List.flatten_cons]
    have hslen : segs.length = fc := hl segs (List.mem_cons_self segs segss)
    have hzlen : (List.zipWith (fun f s => f ++ s) acc segs).length = fc := by
      rw [List.length_zipWith, hacc, hslen]
      simp
    rw [ih (fun x hx => hl x (List.mem_cons_of_mem segs hx)) _ hzlen j hj]
    have hz : (List.zipWith (fun f s => f ++ s) acc segs).getD j []
        = acc.getD j [] ++ segs.getD j [] := by
      rw [List.getD_eq_getElem _ _ (by omega), List.getD_eq_getElem _ _ (by omega),
        List.getD_eq_getElem _ _ (by omega), List.getElem_zipWith]
    rw [hz, List.append_assoc]

/-- Entry j of the prefix-sum list is the start value plus the sum of the
first j + 1 deltas. -/
theorem prefixSums_getD (ds : List Int) :
    ∀ (fs : Int) (j : Nat), j < ds.length →
      (prefixSums fs ds).getD j 0 = fs + (ds.take (j + 1)).sum := by
  induction ds with
  | nil => intro fs j hj; simp at hj
  | cons d ds ih =>
    intro fs j hj
    rcases j with _ | j
    · simp [prefixSums]
    · simp only [prefixSums, List.getD_cons_succ, List.take_succ_cons, List.sum_cons]
      rw [ih (fs + d) j (by simpa using hj)]
      ring

/-- Every chunk of segments has one segment per file. -/
theorem segss_lengths (fc : Nat) (dss : List (List Int)) (segss : List (List (List Nat)))
    (hf : List.Forall₂ (SegSizes 0) dss segss)
    (hl : ∀ ds ∈ dss, ds.length = fc) :
    ∀ segs ∈ segss, segs.length = fc := by
  induction hf with
  | nil => intro segs h; simp at h
  | cons hrel hrest ih =>
    rename_i ds segs dss1 segss1
    intro x hx
    rcases hx with _ | hx
    · rw [SegSizes_length ds 0 segs hrel]
      exact hl ds (List.mem_cons_self ds dss1)
    · rename_i hx
      exact ih (fun y hy => hl y (List.mem_cons_of_mem ds hy)) x hx

/-- C7: when a group with file_count at least 2 is unpacked, the last byte
of the decompressed blob is the chunk count, the chunks times file_count
times 4 bytes before it are signed per-chunk per-file size deltas, each
file receives, in chunk-major file-minor order, one payload segment per
chunk whose size is the running prefix sum of that chunk up to the file,
the resulting file j is the concatenation of its segments over the chunks,
and its size is the sum over chunks of the prefix sums of deltas up to
file j. -/
theorem C7_unpack_group (fc chunks : Nat) (dss : List (List Int))
    (segss : List (List (List Nat))) (metaRegion : List Nat)
    (_hfc : 2 ≤ fc) (hchunks : dss.length = chunks) (hbyte : chunks < 256)
    (hdslen : ∀ ds ∈ dss, ds.length = fc)
    (hparse : ParsesChunks dss (metaRegion ++ [chunks]) [chunks])
    (hseg : List.Forall₂ (SegSizes 0) dss segss) :
    unpackMulti ((segss.map (fun segs => segs.flatten)).flatten ++ (metaRegion ++ [chunks])) fc
      = some (specFiles fc segss) ∧
    (∀ j, j < fc → (specFiles fc segss).getD j []
      = (segss.map (fun segs => segs.getD j [])).flatten) ∧
    (∀ j, j < fc → (specFileSizes fc dss).getD j 0
      = (dss.map (fun ds => (ds.take (j + 1)).sum)).sum) := by
  subst hchunks
  have hslen : ∀ segs ∈ segss, segs.length = fc := segss_lengths fc dss segss hseg hdslen
  have hmetalen : metaRegion.length = fc * dss.length * 4 := by
    have h1 := ParsesChunks_length dss (metaRegion ++ [dss.length]) [dss.length] hparse
    have h2 : (dss.map (fun ds => ds.length)).sum = dss.length * fc := by
      rw [List.map_congr_left (fun ds hds => hdslen ds hds), List.map_const']
      simp [Nat.mul_comm]
    rw [h2] at h1
    simp only [List.length_append, List.length_cons, List.length_nil] at h1
    have hcomm : dss.length * fc = fc * dss.length := Nat.mul_comm dss.length fc
    omega
  refine ⟨?_, ?_, ?_⟩
  · unfold unpackMulti
    set payload := (segss.map (fun segs => segs.flatten)).flatten with hpayload
    have hlast : (payload ++ (metaRegion ++ [dss.length])).getLast? = some dss.length := by
      rw [show payload ++ (metaRegion ++ [dss.length]) = (payload ++ metaRegion) ++ [dss.length] by
        simp [List.append_assoc]]
      exact List.getLast?_concat _
    have hguard : fc * dss.length * 4 + 1 ≤ (payload ++ (metaRegion ++ [dss.length])).length := by
      simp only [List.length_append, List.length_cons, List.length_nil]
      omega
    have hdrop : (payload ++ (metaRegion ++ [dss.length])).drop
        ((payload ++ (metaRegion ++ [dss.length])).length - 1 - fc * dss.length * 4)
        = metaRegion ++ [dss.length] := by
      have : (payload ++ (metaRegion ++ [dss.length])).length - 1 - fc * dss.length * 4
          = payload.length := by
        simp only [List.length_append, List.length_cons, List.length_nil]
        omega
      rw [this]
      exact List.drop_left payload (metaRegion ++ [dss.length])
    simp only [Option.bind_eq_bind, Option.pure_def, hlast, Option.some_bind]
    rw [show (guard (fc * dss.length * 4 + 1 ≤ (payload ++ (metaRegion ++ [dss.length])).length)
        : Option Unit) = some () from by unfold guard; rw [if_pos hguard]; rfl]
    simp only [Option.some_bind, hdrop]
    rw [sizePass_spec dss (List.replicate fc 0) (metaRegion ++ [dss.length]) [dss.length] hparse
      (by intro ds hds; simp [hdslen ds hds])]
    simp only [Option.some_bind]
    have hsizes_len :
        ((dss.foldl (fun acc ds => List.zipWith (fun s p => s + p) acc (prefixSums 0 ds))
          (List.replicate fc 0))).length = fc :=
      foldZipAdd_length fc dss hdslen (List.replicate fc 0) (by simp)
    rw [List.map_const', hsizes_len]
    rw [show payload ++ (metaRegion ++ [dss.length])
        = (segss.map (fun segs => segs.flatten)).flatten ++ (metaRegion ++ [dss.length]) from rfl]
    rw [dataPass_spec dss segss (List.replicate fc []) (metaRegion ++ [dss.length]) [dss.length]
      (metaRegion ++ [dss.length]) hparse hseg (by intro ds hds; simp [hdslen ds hds])]
    rfl
  · intro j hj
    unfold specFiles
    rw [foldZipApp_getD fc segss hslen (List.replicate fc []) (by simp) j hj]
    simp
  · intro j hj
    unfold specFileSizes
    rw [foldZipAdd_getD fc dss hdslen (List.replicate fc 0) (by simp) j hj]
    have hmap : dss.map (fun ds => (prefixSums 0 ds).getD j 0)
        = dss.map (fun ds => (ds.take (j + 1)).sum) := by
      apply List.map_congr_left
      intro ds hds
      rw [prefixSums_getD ds 0 j (by rw [hdslen ds hds]; omega)]
      simp
    rw [hmap]
    simp

/-- Witness for C7: two files, one chunk, deltas +2 and +1, payload bytes
9 8 7 6 5; the files come out as [9, 8] (size 2) and [7, 6, 5]
(size 2 + 1). -/
theorem C7_unpack_group_witness :
    unpackMulti ((([[[9, 8], [7, 6, 5]]] : List (List (List Nat))).map
          (fun segs => segs.flatten)).flatten
        ++ ([0, 0, 0, 2, 0, 0, 0, 1] ++ [1])) 2
      = some (specFiles 2 [[[9, 8], [7, 6, 5]]]) ∧
    (∀ j, j < 2 → (specFiles 2 [[[9, 8], [7, 6, 5]]]).getD j []
      = (([[[9, 8], [7, 6, 5]]] : List (List (List Nat))).map
          (fun segs => segs.getD j [])).flatten) ∧
    (∀ j, j < 2 → (specFileSizes 2 [[2, 1]]).getD j 0
      = (([[2, 1]] : List (List Int)).map (fun ds => (ds.take (j + 1)).sum)).sum) :=
  C7_unpack_group 2 1 [[2, 1]] [[[9, 8], [7, 6, 5]]] [0, 0, 0, 2, 0, 0, 0, 1]
    (by decide) rfl (by decide) (by decide)
    ⟨[1], ⟨[0, 0, 0, 1, 1], by decide, ⟨[1], by decide, rfl⟩⟩, rfl⟩
    (List.Forall₂.cons (by norm_num [SegSizes]) List.Forall₂.nil)

/-! ### ModelLit::from_unlit: triangle survival, sort keys and render
vertices (model.rs lines 1680-2038, texture.rs lines 8-35) -/

/-- AlphaMode (texture.rs lines 8-12); the first constructor (Opaque in the
source) is named opq here. -/
inductive AlphaMode where
  | opq
  | cutout
  | blend
  deriving Repr, DecidableEq

/-- MaterialInfo (texture.rs lines 14-23); the u8 fields are Nats whose
bounds are carried as hypotheses where they matter. -/
structure MaterialInfo where
  high_detail : Bool
  standard_detail_only : Bool
  alpha_mode : AlphaMode
  effect_id : Nat
  effect_config0 : Nat
  deriving Repr, DecidableEq

/-- Default::default() for MaterialInfo (texture.rs lines 25-35). -/
def MaterialInfo.default : MaterialInfo :=
  ⟨false, false, AlphaMode.opq, 0, 0⟩

/-- texture_provider.get_info(id).unwrap_or_default(): the provider is
modelled as a function to Option MaterialInfo. -/
def lookupInfo (getInfo : Nat → Option MaterialInfo) (id : Nat) : MaterialInfo :=
  (getInfo id).getD MaterialInfo.default

/-- The hd_textures_enabled flag, hard-coded to true in from_unlit
(model.rs line 1691). -/
def hd_textures_enabled : Bool := true

/-- model.triangle_render_type.as_ref().map_or(0, |ts| ts[t]). -/
def renderTypeOf (m : MUnlit) (t : Nat) : Nat :=
  match m.triangle_render_type with
  | none => 0
  | some ts => ts.getD t 0

/-- model.triangle_material.as_ref().map_or(-1, |ts| ts[t]). -/
def materialIdOf (m : MUnlit) (t : Nat) : Int :=
  match m.triangle_material with
  | none => -1
  | some ts => ts.getD t (-1)

/-- The survival test of the first loop of from_unlit (model.rs lines
1692-1710): a triangle is dropped when its render type is 2, or when its
material is standard-detail-only (with hd_textures_enabled fixed to true). -/
def survives (getInfo : Nat → Option MaterialInfo) (m : MUnlit) (t : Nat) : Bool :=
  if renderTypeOf m t = 2 then false
  else if materialIdOf m t ≠ -1 then
    let info := lookupInfo getInfo (u16cast (materialIdOf m t))
    !((hd_textures_enabled || !info.high_detail) && info.standard_detail_only)
  else true

/-- triangle_indices after the first loop: the surviving triangles in
source order. -/
def survivors (getInfo : Nat → Option MaterialInfo) (m : MUnlit) : List Nat :=
  (List.range m.triangle_count).filter (fun t => survives getInfo m t)

/-- The texture_id / material_info pair computed at the top of the sort-key
loop (model.rs lines 1718-1729): texture_id is forced to -1 when the
material is high-detail and hd textures are off (dead with
hd_textures_enabled = true). -/
def texIdInfo (getInfo : Nat → Option MaterialInfo) (m : MUnlit) (t : Nat) :
    Int × Option MaterialInfo :=
  let texture_id := materialIdOf m t
  if texture_id ≠ -1 then
    let info := lookupInfo getInfo (u16cast texture_id)
    if !hd_textures_enabled && info.high_detail then (-1, none)
    else (texture_id, some info)
  else (texture_id, none)

/-- material_info.map_or((0, 0, false), ...) (model.rs lines 1730-1737). -/
def effectTriple (mi : Option MaterialInfo) : Nat × Nat × Bool :=
  match mi with
  | none => (0, 0, false)
  | some info =>
    (info.effect_id, info.effect_config0, decide (info.alpha_mode ≠ AlphaMode.opq))

/-- is_triangle_transparent (model.rs lines 1738-1742). -/
def isTriangleTransparent (getInfo : Nat → Option MaterialInfo) (m : MUnlit)
    (t : Nat) : Bool :=
  (match m.triangle_transparency with
   | none => false
   | some ts => decide (ts.getD t 0 ≠ 0)) ||
    (effectTriple (texIdInfo getInfo m t).2).2.2

/-- The 64-bit sort key of the i-th surviving triangle t (model.rs lines
1717-1755), assembled by the same left-to-right sequence of ORs as the
source; with u8 priorities and u8 effect fields no component reaches bit
64, so Nat arithmetic coincides with u64. -/
def sortKey (getInfo : Nat → Option MaterialInfo) (m : MUnlit) (imt : Bool)
    (i t : Nat) : Nat :=
  let e := effectTriple (texIdInfo getInfo m t).2
  let itt := isTriangleTransparent getInfo m t
  let keyP : Nat :=
    if imt || itt then
      match m.triangle_priority with
      | some priorities => (priorities.getD t 0) <<< 49
      | none => 0
    else 0
  let keyT : Nat := if itt then 1 <<< 48 else 0
  ((((keyP ||| keyT) ||| (e.1 <<< 40)) ||| (e.2.1 <<< 32)) |||
      ((u16cast (texIdInfo getInfo m t).1) <<< 16)) ||| (i &&& 0xffff)

/-- Comparison used for triangle_indices.sort_by_key: ascending by the
attached key. -/
def keyLe (x y : Nat × Nat) : Prop := x.1 ≤ y.1

instance : DecidableRel keyLe := fun x y => inferInstanceAs (Decidable (x.1 ≤ y.1))

instance : IsTotal (Nat × Nat) keyLe := ⟨fun a b => Nat.le_total a.1 b.1⟩

instance : IsTrans (Nat × Nat) keyLe := ⟨fun _ _ _ h1 h2 => Nat.le_trans h1 h2⟩

/-- Each surviving triangle paired with its sort key, in pre-sort order
(i is the index of the triangle in the surviving list, as in the source's
key |= i & 0xffff). -/
def keyedPairs (getInfo : Nat → Option MaterialInfo) (m : MUnlit) (imt : Bool) :
    Nat → List Nat → List (Nat × Nat)
  | _, [] => []
  | i, t :: ts => (sortKey getInfo m imt i t, t) :: keyedPairs getInfo m imt (i + 1) ts

/-- triangle_indices.sort_by_key(|i| sort_keys[*i]) (model.rs line 1759):
Rust's sort_by_key is a stable ascending sort, modelled as the stable
insertionSort on (key, triangle) pairs. -/
def sortedKeyed (getInfo : Nat → Option MaterialInfo) (m : MUnlit) (imt : Bool) :
    List (Nat × Nat) :=
  List.insertionSort keyLe (keyedPairs getInfo m imt 0 (survivors getInfo m))

/-- The sorted surviving triangle list. -/
def sortedTriangles (getInfo : Nat → Option MaterialInfo) (m : MUnlit)
    (imt : Bool) : List Nat :=
  (sortedKeyed getInfo m imt).map Prod.snd

/-- OR can only set bits: the left operand is a lower bound. -/
theorem nat_le_or_left (a b : Nat) : a ≤ a ||| b :=
  Nat.le_of_testBit fun i h => by simp [Nat.testBit_or, h]

/-- OR can only set bits: the right operand is a lower bound. -/
theorem nat_le_or_right (a b : Nat) : b ≤ a ||| b :=
  Nat.le_of_testBit fun i h => by simp [Nat.testBit_or, h]

/-- ORing in a multiple of 2^k does not change the low k bits. -/
theorem lor_mod_two_pow_right (a b k : Nat) (ha : 2 ^ k ∣ a) :
    (a ||| b) % 2 ^ k = b % 2 ^ k := by
  calc (a ||| b) % 2 ^ k
      = (a ||| b) &&& (2 ^ k - 1) := (Nat.and_pow_two_sub_one_eq_mod _ _).symm
    _ = (2 ^ k - 1) &&& (a ||| b) := by rw [Nat.and_comm]
    _ = ((2 ^ k - 1) &&& a) ||| ((2 ^ k - 1) &&& b) := Nat.and_or_distrib_left _ _ _
    _ = (a &&& (2 ^ k - 1)) ||| (b &&& (2 ^ k - 1)) := by
        rw [Nat.and_comm (2 ^ k - 1) a, Nat.and_comm (2 ^ k - 1) b]
    _ = (a % 2 ^ k) ||| (b % 2 ^ k) := by
        rw [Nat.and_pow_two_sub_one_eq_mod, Nat.and_pow_two_sub_one_eq_mod]
    _ = 0 ||| (b % 2 ^ k) := by rw [Nat.mod_eq_zero_of_dvd ha]
    _ = b % 2 ^ k := Nat.zero_or _

/-- OR of two multiples of 2^k is a multiple of 2^k. -/
theorem two_pow_dvd_lor (a b k : Nat) (ha : 2 ^ k ∣ a) (hb : 2 ^ k ∣ b) :
    2 ^ k ∣ (a ||| b) :=
  Nat.dvd_of_mod_eq_zero
    (by rw [lor_mod_two_pow_right a b k ha, Nat.mod_eq_zero_of_dvd hb])

/-- A value shifted left by at least k bits is a multiple of 2^k. -/
theorem two_pow_dvd_shiftLeft (x j k : Nat) (h : k ≤ j) : 2 ^ k ∣ x <<< j := by
  rw [Nat.shiftLeft_eq]
  exact Dvd.dvd.mul_left (pow_dvd_pow 2 h) x

/-- u16 casts land below 65536. -/
theorem u16cast_lt (v : Int) : u16cast v < 65536 := by
  unfold u16cast; omega

/-- keyedPairs preserves the length of the survivor list. -/
theorem keyedPairs_length (getInfo : Nat → Option MaterialInfo) (m : MUnlit)
    (imt : Bool) : ∀ (l : List Nat) (i0 : Nat),
    (keyedPairs getInfo m imt i0 l).length = l.length := by
  intro l
  induction l with
  | nil => intro i0; rfl
  | cons t ts ih => intro i0; simp [keyedPairs, ih]

/-- The j-th keyed pair holds the j-th survivor and its key at index i0+j. -/
theorem keyedPairs_getD (getInfo : Nat → Option MaterialInfo) (m : MUnlit)
    (imt : Bool) : ∀ (l : List Nat) (i0 j : Nat), j < l.length →
    (keyedPairs getInfo m imt i0 l).getD j (0, 0)
      = (sortKey getInfo m imt (i0 + j) (l.getD j 0), l.getD j 0) := by
  intro l
  induction l with
  | nil => intro i0 j h; simp at h
  | cons t ts ih =>
    intro i0 j h
    cases j with
    | zero => simp [keyedPairs]
    | succ j =>
      have := ih (i0 + 1) j (by simpa using Nat.lt_of_succ_lt_succ h)
      simp only [keyedPairs, List.getD_cons_succ, List.length_cons] at this ⊢
      rw [this]
      have harith : i0 + 1 + j = i0 + (j + 1) := by omega
      rw [harith]

/-- Dropping the keys from keyedPairs recovers the survivor list. -/
theorem keyedPairs_map_snd (getInfo : Nat → Option MaterialInfo) (m : MUnlit)
    (imt : Bool) : ∀ (l : List Nat) (i0 : Nat),
    (keyedPairs getInfo m imt i0 l).map Prod.snd = l := by
  intro l
  induction l with
  | nil => intro i0; rfl
  | cons t ts ih => intro i0; simp [keyedPairs, ih]

/-- Every keyed pair is a survivor together with its sort key at some
index. -/
theorem keyedPairs_mem (getInfo : Nat → Option MaterialInfo) (m : MUnlit)
    (imt : Bool) : ∀ (l : List Nat) (i0 : Nat) (p : Nat × Nat),
    p ∈ keyedPairs getInfo m imt i0 l →
    ∃ i, p = (sortKey getInfo m imt i p.2, p.2) := by
  intro l
  induction l with
  | nil => intro i0 p hp; simp [keyedPairs] at hp
  | cons t ts ih =>
    intro i0 p hp
    rw [keyedPairs] at hp
    rcases List.mem_cons.mp hp with h | h
    · exact ⟨i0, by rw [h]⟩
    · exact ih (i0 + 1) p h

/-- Two positions of a list, in order, form a sublist. -/
theorem getD_pair_sublist {α : Type} (d : α) :
    ∀ (l : List α) (i1 i2 : Nat), i1 < i2 → i2 < l.length →
    [l.getD i1 d, l.getD i2 d].Sublist l := by
  intro l
  induction l with
  | nil => intro i1 i2 _ h2; simp at h2
  | cons a l ih =>
    intro i1 i2 h12 h2
    cases i1 with
    | zero =>
      cases i2 with
      | zero => omega
      | succ j =>
        refine List.Sublist.cons₂ a ?_
        have hj : j < l.length := by simpa using Nat.lt_of_succ_lt_succ h2
        rw [List.getD_cons_succ, List.getD_eq_getElem l d hj]
        exact List.singleton_sublist.mpr (List.getElem_mem hj)
    | succ j1 =>
      cases i2 with
      | zero => omega
      | succ j2 =>
        rw [List.getD_cons_succ, List.getD_cons_succ]
        exact List.Sublist.cons a
          (ih j1 j2 (by omega) (by simpa using Nat.lt_of_succ_lt_succ h2))

/-- The low 16 bits of a sort key are the survivor index (mod 2^16), as
all other key components sit at bit 16 and above. -/
theorem sortKey_mod (getInfo : Nat → Option MaterialInfo) (m : MUnlit)
    (imt : Bool) (i t : Nat) :
    sortKey getInfo m imt i t % 2 ^ 16 = i % 2 ^ 16 := by
  simp only [sortKey]
  rw [lor_mod_two_pow_right]
  · have h0 : (0xffff : Nat) = 2 ^ 16 - 1 := by norm_num
    rw [h0, Nat.and_pow_two_sub_one_eq_mod]
    omega
  · apply two_pow_dvd_lor
    apply two_pow_dvd_lor
    apply two_pow_dvd_lor
    apply two_pow_dvd_lor
    · split
      · split
        · exact two_pow_dvd_shiftLeft _ 49 16 (by omega)
        · exact dvd_zero _
      · exact dvd_zero _
    · split
      · exact two_pow_dvd_shiftLeft _ 48 16 (by omega)
      · exact dvd_zero _
    · exact two_pow_dvd_shiftLeft _ 40 16 (by omega)
    · exact two_pow_dvd_shiftLeft _ 32 16 (by omega)
    · exact two_pow_dvd_shiftLeft _ 16 16 (by omega)

/-- A transparent triangle's key has bit 48 set and is therefore at least
2^48. -/
theorem sortKey_ge_of_transparent (getInfo : Nat → Option MaterialInfo)
    (m : MUnlit) (imt : Bool) (i t : Nat)
    (h : isTriangleTransparent getInfo m t = true) :
    2 ^ 48 ≤ sortKey getInfo m imt i t := by
  simp only [sortKey, h, Bool.or_true, if_true]
  refine le_trans ?_ (nat_le_or_left _ _)
  refine le_trans ?_ (nat_le_or_left _ _)
  refine le_trans ?_ (nat_le_or_left _ _)
  refine le_trans ?_ (nat_le_or_left _ _)
  refine le_trans ?_ (nat_le_or_right _ _)
  norm_num [Nat.shiftLeft_eq]

/-- Bounds on the effect id and config actually fed into a sort key,
derived from the bounds on the texture provider's materials. -/
theorem effectTriple_bounds (getInfo : Nat → Option MaterialInfo) (m : MUnlit)
    (t : Nat)
    (hinfo : ∀ id, (lookupInfo getInfo id).effect_id < 256 ∧
      (lookupInfo getInfo id).effect_config0 < 256) :
    (effectTriple (texIdInfo getInfo m t).2).1 < 256 ∧
      (effectTriple (texIdInfo getInfo m t).2).2.1 < 256 := by
  by_cases h : materialIdOf m t = -1
  · simp [texIdInfo, h, effectTriple]
  · simp [texIdInfo, h, hd_textures_enabled, effectTriple]
    exact hinfo (u16cast (materialIdOf m t))

/-- With the model not flagged transparent, an opaque triangle's key has
no priority and no transparency component, so it stays below 2^48. -/
theorem sortKey_lt_of_opaque (getInfo : Nat → Option MaterialInfo)
    (m : MUnlit) (i t : Nat)
    (hinfo : ∀ id, (lookupInfo getInfo id).effect_id < 256 ∧
      (lookupInfo getInfo id).effect_config0 < 256)
    (h : isTriangleTransparent getInfo m t = false) :
    sortKey getInfo m false i t < 2 ^ 48 := by
  obtain ⟨he, hc⟩ := effectTriple_bounds getInfo m t hinfo
  simp only [sortKey, h, Bool.or_false, Bool.false_or, if_false, Bool.false_eq_true,
    ite_false, Nat.zero_or]
  apply Nat.or_lt_two_pow
  apply Nat.or_lt_two_pow
  apply Nat.or_lt_two_pow
  · have : (effectTriple (texIdInfo getInfo m t).2).1 < 2 ^ 8 := by omega
    simpa using Nat.shiftLeft_lt this (m := 40)
  · have h16 : (effectTriple (texIdInfo getInfo m t).2).2.1 < 2 ^ 16 := by omega
    have := Nat.shiftLeft_lt h16 (m := 32)
    simpa using this
  · have h16 : u16cast (texIdInfo getInfo m t).1 < 2 ^ 16 := by
      have := u16cast_lt (texIdInfo getInfo m t).1
      omega
    have := Nat.shiftLeft_lt h16 (m := 16)
    have h32 : (2 : Nat) ^ 32 < 2 ^ 48 := by norm_num
    omega
  · have := Nat.and_le_right (n := i) (m := 0xffff)
    omega

/-- The surviving triangle list never exceeds the triangle count. -/
theorem survivors_length_le (getInfo : Nat → Option MaterialInfo) (m : MUnlit) :
    (survivors getInfo m).length ≤ m.triangle_count := by
  unfold survivors
  exact le_trans (List.length_filter_le _ _) (by simp)

/-- C3: the render-triangle order is ascending in the 64-bit sort key, and
triangles whose keys agree on the high 48 bits keep their source-order
relative position (the low 16 bits are the pre-sort survivor index).  The
claimed "every transparent triangle follows every opaque triangle for
every flag set" only holds when the model is not flagged
ANIMATED_TRANSPARENCY: that conclusion is stated here for imt = false,
since with the flag set the priority bits (63:49) outrank the
transparency bit (48). -/
theorem C3_sort_order (getInfo : Nat → Option MaterialInfo) (m : MUnlit)
    (hcount : m.triangle_count ≤ 65536)
    (hinfo : ∀ id, (lookupInfo getInfo id).effect_id < 256 ∧
      (lookupInfo getInfo id).effect_config0 < 256) :
    (∀ imt : Bool, List.Pairwise (fun k1 k2 => k1 ≤ k2)
        ((sortedKeyed getInfo m imt).map Prod.fst)) ∧
    (∀ (imt : Bool) (i1 i2 : Nat), i1 < i2 → i2 < (survivors getInfo m).length →
      sortKey getInfo m imt i1 ((survivors getInfo m).getD i1 0) >>> 16
          = sortKey getInfo m imt i2 ((survivors getInfo m).getD i2 0) >>> 16 →
      [(survivors getInfo m).getD i1 0, (survivors getInfo m).getD i2 0].Sublist
        (sortedTriangles getInfo m imt)) ∧
    (∀ j1 j2 : Nat, j1 ≤ j2 → j2 < (sortedTriangles getInfo m false).length →
      isTriangleTransparent getInfo m
          ((sortedTriangles getInfo m false).getD j1 0) = true →
      isTriangleTransparent getInfo m
          ((sortedTriangles getInfo m false).getD j2 0) = true) := by
  refine ⟨?_, ?_, ?_⟩
  · intro imt
    have hs : List.Sorted keyLe (sortedKeyed getInfo m imt) :=
      List.sorted_insertionSort keyLe _
    exact List.Pairwise.map Prod.fst (fun a b hab => hab) hs
  · intro imt i1 i2 h12 h2 hkey
    have hlen1 : i1 < (survivors getInfo m).length := lt_trans h12 h2
    have hlenb : (survivors getInfo m).length ≤ 65536 :=
      le_trans (survivors_length_le getInfo m) hcount
    have hm1 : sortKey getInfo m imt i1 ((survivors getInfo m).getD i1 0) % 2 ^ 16
        = i1 := by
      rw [sortKey_mod]; exact Nat.mod_eq_of_lt (by omega)
    have hm2 : sortKey getInfo m imt i2 ((survivors getInfo m).getD i2 0) % 2 ^ 16
        = i2 := by
      rw [sortKey_mod]; exact Nat.mod_eq_of_lt (by omega)
    have hk12 : sortKey getInfo m imt i1 ((survivors getInfo m).getD i1 0)
        ≤ sortKey getInfo m imt i2 ((survivors getInfo m).getD i2 0) := by
      rw [Nat.shiftRight_eq_div_pow, Nat.shiftRight_eq_div_pow] at hkey
      have d1 := Nat.div_add_mod
        (sortKey getInfo m imt i1 ((survivors getInfo m).getD i1 0)) (2 ^ 16)
      have d2 := Nat.div_add_mod
        (sortKey getInfo m imt i2 ((survivors getInfo m).getD i2 0)) (2 ^ 16)
      omega
    have hgd1 : (keyedPairs getInfo m imt 0 (survivors getInfo m)).getD i1 (0, 0)
        = (sortKey getInfo m imt i1 ((survivors getInfo m).getD i1 0),
            (survivors getInfo m).getD i1 0) := by
      have := keyedPairs_getD getInfo m imt (survivors getInfo m) 0 i1 hlen1
      simpa using this
    have hgd2 : (keyedPairs getInfo m imt 0 (survivors getInfo m)).getD i2 (0, 0)
        = (sortKey getInfo m imt i2 ((survivors getInfo m).getD i2 0),
            (survivors getInfo m).getD i2 0) := by
      have := keyedPairs_getD getInfo m imt (survivors getInfo m) 0 i2 h2
      simpa using this
    have hsub : [(sortKey getInfo m imt i1 ((survivors getInfo m).getD i1 0),
          (survivors getInfo m).getD i1 0),
        (sortKey getInfo m imt i2 ((survivors getInfo m).getD i2 0),
          (survivors getInfo m).getD i2 0)].Sublist
        (keyedPairs getInfo m imt 0 (survivors getInfo m)) := by
      have := getD_pair_sublist (0, 0)
        (keyedPairs getInfo m imt 0 (survivors getInfo m)) i1 i2 h12
        (by rw [keyedPairs_length]; exact h2)
      rwa [hgd1, hgd2] at this
    have hpairs := List.pair_sublist_insertionSort
      (show keyLe
          (sortKey getInfo m imt i1 ((survivors getInfo m).getD i1 0),
            (survivors getInfo m).getD i1 0)
          (sortKey getInfo m imt i2 ((survivors getInfo m).getD i2 0),
            (survivors getInfo m).getD i2 0) from hk12) hsub
    have hmap := hpairs.map Prod.snd
    simpa [sortedTriangles, sortedKeyed] using hmap
  · intro j1 j2 hj hlen htr
    have hlenL : (sortedTriangles getInfo m false).length
        = (sortedKeyed getInfo m false).length := by
      simp [sortedTriangles]
    have hj2 : j2 < (sortedKeyed getInfo m false).length := by rwa [hlenL] at hlen
    have hj1 : j1 < (sortedKeyed getInfo m false).length := lt_of_le_of_lt hj hj2
    have hget : ∀ (j : Nat) (hjL : j < (sortedKeyed getInfo m false).length),
        (sortedTriangles getInfo m false).getD j 0
          = ((sortedKeyed getInfo m false).get ⟨j, hjL⟩).2 := by
      intro j hjL
      rw [sortedTriangles, List.getD_eq_getElem _ 0 (by simpa using hjL)]
      simp
    have hmemiff : ∀ p ∈ sortedKeyed getInfo m false,
        (isTriangleTransparent getInfo m p.2 = true ↔ 2 ^ 48 ≤ p.1) := by
      intro p hp
      have hp2 : p ∈ keyedPairs getInfo m false 0 (survivors getInfo m) :=
        (List.perm_insertionSort keyLe _).mem_iff.mp hp
      obtain ⟨i, hpe⟩ := keyedPairs_mem getInfo m false _ 0 p hp2
      have hp1 : p.1 = sortKey getInfo m false i p.2 := by rw [hpe]
      constructor
      · intro ht
        rw [hp1]
        exact sortKey_ge_of_transparent getInfo m false i p.2 ht
      · intro hge
        by_contra hne
        have hf : isTriangleTransparent getInfo m p.2 = false := by
          cases hb : isTriangleTransparent getInfo m p.2
          · rfl
          · exact absurd hb hne
        have := sortKey_lt_of_opaque getInfo m i p.2 hinfo hf
        omega
    have hsorted : List.Pairwise keyLe (sortedKeyed getInfo m false) :=
      List.sorted_insertionSort keyLe _
    rcases Nat.lt_or_ge j1 j2 with hlt | hge
    · have hle : keyLe ((sortedKeyed getInfo m false).get ⟨j1, hj1⟩)
          ((sortedKeyed getInfo m false).get ⟨j2, hj2⟩) := by
        have := List.pairwise_iff_getElem.mp hsorted j1 j2 hj1 hj2 hlt
        simpa [List.get_eq_getElem] using this
      rw [hget j1 hj1] at htr
      rw [hget j2 hj2]
      have h1 := (hmemiff _ (List.get_mem _ _ hj1)).mp htr
      exact (hmemiff _ (List.get_mem _ _ hj2)).mpr (le_trans h1 hle)
    · have : j1 = j2 := by omega
      subst this
      rw [hget j1 hj1] at htr
      rw [hget j1 hj1]
      exact htr

/-- Witness mesh for C3: two surviving triangles, the first transparent,
no materials and no priorities. -/
def c3wM : MUnlit :=
  ⟨2, 0, 3, [0, 0], [1, 1], [2, 2], none, some [1, 0], none, none, none, none⟩

/-- Witness for C3 at a concrete mesh: the build reorders the transparent
triangle 0 after the opaque triangle 1, and the three proved order
properties hold. -/
theorem C3_sort_order_witness :
    sortedTriangles (fun _ => none) c3wM false = [1, 0] ∧
    ((∀ imt : Bool, List.Pairwise (fun k1 k2 => k1 ≤ k2)
        ((sortedKeyed (fun _ => none) c3wM imt).map Prod.fst)) ∧
    (∀ (imt : Bool) (i1 i2 : Nat), i1 < i2 → i2 < (survivors (fun _ => none) c3wM).length →
      sortKey (fun _ => none) c3wM imt i1 ((survivors (fun _ => none) c3wM).getD i1 0) >>> 16
          = sortKey (fun _ => none) c3wM imt i2 ((survivors (fun _ => none) c3wM).getD i2 0) >>> 16 →
      [(survivors (fun _ => none) c3wM).getD i1 0,
        (survivors (fun _ => none) c3wM).getD i2 0].Sublist
        (sortedTriangles (fun _ => none) c3wM imt)) ∧
    (∀ j1 j2 : Nat, j1 ≤ j2 → j2 < (sortedTriangles (fun _ => none) c3wM false).length →
      isTriangleTransparent (fun _ => none) c3wM
          ((sortedTriangles (fun _ => none) c3wM false).getD j1 0) = true →
      isTriangleTransparent (fun _ => none) c3wM
          ((sortedTriangles (fun _ => none) c3wM false).getD j2 0) = true)) :=
  ⟨by decide,
    C3_sort_order (fun _ => none) c3wM (by decide)
      (fun _ => ⟨by norm_num [lookupInfo, MaterialInfo.default],
        by norm_num [lookupInfo, MaterialInfo.default]⟩)⟩

/-- Counterexample mesh for C3's unconditional transparent-after-opaque
claim: the ANIMATED_TRANSPARENCY flag is set, triangle 0 is opaque with
priority 1, triangle 1 is transparent with priority 0. -/
def c3cexM : MUnlit :=
  ⟨2, 0, 3, [0, 0], [1, 1], [2, 2], none, some [0, 1], none, none,
    some [1, 0], none⟩

/-- With the model flagged ANIMATED_TRANSPARENCY, the priority bits sit
above the transparency bit, so the transparent triangle 1 comes out
before the opaque triangle 0: transparent triangles do not always follow
opaque ones for every flag set. -/
theorem C3_counterexample :
    sortedTriangles (fun _ => none) c3cexM true = [1, 0] ∧
    isTriangleTransparent (fun _ => none) c3cexM 1 = true ∧
    isTriangleTransparent (fun _ => none) c3cexM 0 = false := by
  decide

/-! ### Render-vertex allocation (model.rs lines 1688-1778, 1782-1962 and
add_render_vertex lines 2003-2038); the normal and texcoord stores are
omitted, they touch no field of this development. -/

/-- The three corner-vertex indices of each triangle of a list, in order
(a, b, c per triangle). -/
def cornersOf (m : MUnlit) (l : List Nat) : List Nat :=
  l.flatMap (fun t =>
    [m.triangle_a.getD t 0, m.triangle_b.getD t 0, m.triangle_c.getD t 0])

/-- One vertex_unique_index[v] += 1 step of the survivor loop. -/
def incAt (l : List Nat) (i : Nat) : List Nat := l.set i (l.getD i 0 + 1)

/-- The reference counts accumulated into vertex_unique_index by the
survivor loop (model.rs lines 1689, 1707-1709), starting from
vec![0; used_vertex_count + 1]. -/
def vertexRefCounts (m : MUnlit) (surv : List Nat) : List Nat :=
  surv.foldl
    (fun acc t =>
      incAt (incAt (incAt acc (m.triangle_a.getD t 0)) (m.triangle_b.getD t 0))
        (m.triangle_c.getD t 0))
    (List.replicate (m.used_vertex_count + 1) 0)

/-- The in-place pass of model.rs lines 1772-1778: each slot but the last
is replaced by the running total of the counts before it, and the last
slot is overwritten with the final total. -/
def prefixPassGo : List Nat → Nat → List Nat
  | [], _ => []
  | [_], idx => [idx]
  | c :: c2 :: cs, idx => idx :: prefixPassGo (c2 :: cs) (idx + c)

/-- vertex_unique_index after the prefix pass. -/
def vertexUniqueIndex (getInfo : Nat → Option MaterialInfo) (m : MUnlit) :
    List Nat :=
  prefixPassGo (vertexRefCounts m (survivors getInfo m)) 0

/-- The fields of ModelRenderVertices that add_render_vertex reads or
writes (model.rs lines 1559-1583). -/
structure RVState where
  vertex_stream_pos : List Nat
  render_vertex_count : Nat
  deriving Repr, DecidableEq

/-- The free-slot search of add_render_vertex (model.rs lines 2016-2024):
the first v in [v_start, v_end) whose vertex_stream_pos entry is 0, and
slot 0 if every entry in the range is non-zero.  The getD default 1 is
never hit: the search range stays inside the array. -/
def findFreeSlot (pos : List Nat) (v_start v_end : Nat) : Nat :=
  match (List.range' v_start (v_end - v_start)).find?
      (fun v => decide (pos.getD v 1 = 0)) with
  | some v => v
  | none => 0

/-- add_render_vertex (model.rs lines 2003-2038) restricted to the
vertex_stream_pos / render_vertex_count fields; returns the new state and
the returned stream index (the old render_vertex_count). -/
def add_render_vertex (vui : List Nat) (st : RVState) (v : Nat) :
    RVState × Nat :=
  let v_start := vui.getD v 0
  let v_end := vui.getD (v + 1) 0
  let stream_index := findFreeSlot st.vertex_stream_pos v_start v_end
  (⟨st.vertex_stream_pos.set stream_index (st.render_vertex_count + 1),
      st.render_vertex_count + 1⟩,
    st.render_vertex_count)

/-- One triangle of the emission loop (model.rs lines 1782-1962): render
type 0 and render type 1 both emit the three corners a, b, c in order
(they differ only in the normals written); any other type emits
nothing. -/
def rvStep (m : MUnlit) (vui : List Nat) (st : RVState) (t : Nat) : RVState :=
  let render_type := renderTypeOf m t
  if render_type = 0 then
    let st1 := (add_render_vertex vui st (m.triangle_a.getD t 0)).1
    let st2 := (add_render_vertex vui st1 (m.triangle_b.getD t 0)).1
    (add_render_vertex vui st2 (m.triangle_c.getD t 0)).1
  else if render_type = 1 then
    let st1 := (add_render_vertex vui st (m.triangle_a.getD t 0)).1
    let st2 := (add_render_vertex vui st1 (m.triangle_b.getD t 0)).1
    (add_render_vertex vui st2 (m.triangle_c.getD t 0)).1
  else st

/-- The emission loop over the sorted surviving triangles, started from
ModelRenderVertices::new(cap). -/
def buildRenderVertices (m : MUnlit) (vui : List Nat) (cap : Nat)
    (sorted : List Nat) : RVState :=
  sorted.foldl (rvStep m vui) ⟨List.replicate cap 0, 0⟩

/-- The render-vertex state produced by from_unlit: capacity
triangle_count * 3 over the sorted survivors. -/
def modelLitRV (getInfo : Nat → Option MaterialInfo) (m : MUnlit)
    (imt : Bool) : RVState :=
  buildRenderVertices m (vertexUniqueIndex getInfo m)
    ((survivors getInfo m).length * 3) (sortedTriangles getInfo m imt)

/-- The three per-corner increments of the survivor loop are the fold of
single increments over the flattened corner list. -/
theorem vertexRefCounts_eq_foldl (m : MUnlit) (surv : List Nat) :
    vertexRefCounts m surv
      = (cornersOf m surv).foldl incAt
          (List.replicate (m.used_vertex_count + 1) 0) := by
  unfold vertexRefCounts cornersOf
  generalize List.replicate (m.used_vertex_count + 1) 0 = init
  induction surv generalizing init with
  | nil => rfl
  | cons t ts ih =>
    rw [List.foldl_cons, List.flatMap_cons, List.foldl_append]
    rw [ih]
    rfl

/-- Folding increments preserves the array length. -/
theorem foldl_incAt_length (l : List Nat) :
    ∀ init : List Nat, (l.foldl incAt init).length = init.length := by
  induction l with
  | nil => intro init; rfl
  | cons x xs ih =>
    intro init
    rw [List.foldl_cons, ih]
    simp [incAt]

/-- Folding increments ends with each in-range slot holding its start
value plus the number of occurrences. -/
theorem foldl_incAt_getD (l : List Nat) :
    ∀ (init : List Nat) (v : Nat), v < init.length →
    (l.foldl incAt init).getD v 0 = init.getD v 0 + l.count v := by
  induction l with
  | nil => intro init v _; simp
  | cons x xs ih =>
    intro init v hv
    rw [List.foldl_cons,
      ih (incAt init x) v (by simpa [incAt] using hv)]
    have hstep : (incAt init x).getD v 0
        = init.getD v 0 + (if x = v then 1 else 0) := by
      by_cases hxv : x = v
      · subst hxv
        simp [incAt, List.getD_eq_getElem?_getD, List.getElem?_set_self hv]
      · simp [incAt, List.getD_eq_getElem?_getD, List.getElem?_set_ne hxv]
        exact hxv
    rw [hstep, List.count_cons]
    by_cases hxv : x = v
    · simp [hxv]
      omega
    · have hvx : ¬(v = x) := fun h => hxv h.symm
      simp [hxv, hvx]

/-- prefixPassGo preserves the array length. -/
theorem prefixPassGo_length :
    ∀ (cs : List Nat) (idx : Nat), (prefixPassGo cs idx).length = cs.length := by
  intro cs
  induction cs with
  | nil => intro idx; rfl
  | cons c cs ih =>
    intro idx
    cases cs with
    | nil => rfl
    | cons c2 cs2 =>
      show (idx :: prefixPassGo (c2 :: cs2) (idx + c)).length = _
      simp [ih (idx + c)]

/-- Each slot of prefixPassGo holds the base plus the sum of the counts
before it (the final slot's stale count is overwritten, not read). -/
theorem prefixPassGo_getD :
    ∀ (cs : List Nat) (idx v : Nat), v < cs.length →
    (prefixPassGo cs idx).getD v 0 = idx + (cs.take v).sum := by
  intro cs
  induction cs with
  | nil => intro idx v h; simp at h
  | cons c cs ih =>
    intro idx v hv
    cases cs with
    | nil =>
      have hv0 : v = 0 := by simpa using Nat.lt_one_iff.mp (by simpa using hv)
      subst hv0
      simp [prefixPassGo]
    | cons c2 cs2 =>
      cases v with
      | zero => simp [prefixPassGo]
      | succ w =>
        have hrec := ih (idx + c) w (by simpa using Nat.lt_of_succ_lt_succ hv)
        show (idx :: prefixPassGo (c2 :: cs2) (idx + c)).getD (w + 1) 0 = _
        rw [List.getD_cons_succ, hrec, List.take_succ_cons, List.sum_cons]
        omega

/-- Sum of a take extended by one in-range element. -/
theorem take_sum_succ_getD :
    ∀ (cs : List Nat) (v : Nat), v < cs.length →
    (cs.take (v + 1)).sum = (cs.take v).sum + cs.getD v 0 := by
  intro cs
  induction cs with
  | nil => intro v h; simp at h
  | cons c cs ih =>
    intro v hv
    cases v with
    | zero => simp
    | succ w =>
      rw [List.take_succ_cons, List.take_succ_cons, List.sum_cons, List.sum_cons,
        List.getD_cons_succ, ih w (by simpa using Nat.lt_of_succ_lt_succ hv)]
      omega

/-- Take-sums grow by one step. -/
theorem take_sum_le_succ (cs : List Nat) (b : Nat) :
    (cs.take b).sum ≤ (cs.take (b + 1)).sum := by
  rcases Nat.lt_or_ge b cs.length with h | h
  · rw [take_sum_succ_getD cs b h]; omega
  · rw [List.take_of_length_le h, List.take_of_length_le (by omega)]

/-- Take-sums are monotone in the number of elements taken. -/
theorem take_sum_mono (cs : List Nat) (a : Nat) :
    ∀ b : Nat, a ≤ b → (cs.take a).sum ≤ (cs.take b).sum := by
  intro b
  induction b with
  | zero => intro h; have : a = 0 := by omega
            simp [this]
  | succ b ih =>
    intro h
    rcases Nat.lt_or_ge a (b + 1) with h2 | h2
    · exact le_trans (ih (by omega)) (take_sum_le_succ cs b)
    · have : a = b + 1 := by omega
      simp [this]

/-- Every position below the total of the first used counts falls in
exactly one count's span. -/
theorem exists_span (cs : List Nat) :
    ∀ used k : Nat, k < (cs.take used).sum →
    ∃ v, v < used ∧ (cs.take v).sum ≤ k ∧ k < (cs.take (v + 1)).sum := by
  intro used
  induction used with
  | zero => intro k h; simp at h
  | succ u ih =>
    intro k hk
    by_cases h : k < (cs.take u).sum
    · obtain ⟨v, h1, h2, h3⟩ := ih k h
      exact ⟨v, by omega, h2, h3⟩
    · exact ⟨u, by omega, by omega, hk⟩

/-- Summing an indicator over a covering range gives one. -/
theorem sum_indicator_range (x : Nat) :
    ∀ n : Nat, x < n →
    (((List.range n).map (fun v => if x = v then 1 else 0)).sum) = 1 := by
  intro n
  induction n with
  | zero => intro h; omega
  | succ n ih =>
    intro h
    rw [List.range_succ, List.map_append, List.sum_append]
    rcases Nat.lt_or_ge x n with h2 | h2
    · have hne : x ≠ n := by omega
      simp [ih h2, hne]
    · have hx : x = n := by omega
      subst hx
      have hzero : (((List.range x).map (fun v => if x = v then 1 else 0)).sum) = 0 := by
        apply List.sum_eq_zero
        intro y hy
        obtain ⟨v, hv, rfl⟩ := List.mem_map.mp hy
        have : v < x := List.mem_range.mp hv
        have : x ≠ v := by omega
        simp [this]
      simp [hzero]

/-- Pointwise sums of maps add. -/
theorem sum_map_add {α : Type} (l : List α) (f g : α → Nat) :
    (l.map (fun v => f v + g v)).sum = (l.map f).sum + (l.map g).sum := by
  induction l with
  | nil => simp
  | cons a l ih => simp [ih]; omega

/-- Counting every value below a bound accounts for the whole list. -/
theorem sum_map_count (n : Nat) :
    ∀ l : List Nat, (∀ x ∈ l, x < n) →
    (((List.range n).map (fun v => l.count v)).sum) = l.length := by
  intro l
  induction l with
  | nil => intro _; simp
  | cons x xs ih =>
    intro h
    have hx : x < n := h x (List.mem_cons_self x xs)
    have hxs := ih (fun y hy => h y (List.mem_cons_of_mem x hy))
    have hcc : ∀ v : Nat, (x :: xs).count v = xs.count v + (if x = v then 1 else 0) := by
      intro v
      by_cases hvx : v = x
      · subst hvx; simp [List.count_cons]
      · have hxv : x ≠ v := fun hh => hvx hh.symm
        simp [List.count_cons, hvx, hxv]
    calc ((List.range n).map (fun v => (x :: xs).count v)).sum
        = ((List.range n).map (fun v => xs.count v + (if x = v then 1 else 0))).sum := by
          exact congrArg _ (List.map_congr_left (fun v _ => hcc v))
      _ = ((List.range n).map (fun v => xs.count v)).sum
          + ((List.range n).map (fun v => if x = v then 1 else 0)).sum := by
          rw [← sum_map_add]
      _ = xs.length + 1 := by rw [hxs, sum_indicator_range x n hx]
      _ = (x :: xs).length := by simp

/-- A take-sum equals the sum of the slot values over the index range. -/
theorem take_sum_eq_range_map (cs : List Nat) :
    ∀ n : Nat, n ≤ cs.length →
    (cs.take n).sum = ((List.range n).map (fun v => cs.getD v 0)).sum := by
  intro n
  induction n with
  | zero => intro _; simp
  | succ n ih =>
    intro h
    rw [List.range_succ, List.map_append, List.sum_append,
      take_sum_succ_getD cs n (by omega), ih (by omega)]
    simp

/-- Three corners per triangle. -/
theorem cornersOf_length (m : MUnlit) :
    ∀ l : List Nat, (cornersOf m l).length = l.length * 3 := by
  intro l
  induction l with
  | nil => rfl
  | cons t ts ih =>
    show ((_ :: _ :: _ :: cornersOf m ts)).length = _
    simp [ih]
    omega

/-- Sorting permutes the surviving triangles. -/
theorem sortedTriangles_perm (getInfo : Nat → Option MaterialInfo) (m : MUnlit)
    (imt : Bool) : (sortedTriangles getInfo m imt).Perm (survivors getInfo m) := by
  unfold sortedTriangles sortedKeyed
  have h1 := List.perm_insertionSort keyLe
    (keyedPairs getInfo m imt 0 (survivors getInfo m))
  have h2 := h1.map Prod.snd
  rwa [keyedPairs_map_snd] at h2

/-- When every triangle in the list has render type 0 or 1, the triangle
loop is a fold of single corner emissions over the flattened corners. -/
theorem buildRV_eq_corner_fold (m : MUnlit) (vui : List Nat) :
    ∀ (l : List Nat) (st : RVState),
    (∀ t ∈ l, renderTypeOf m t = 0 ∨ renderTypeOf m t = 1) →
    l.foldl (rvStep m vui) st
      = (cornersOf m l).foldl (fun s v => (add_render_vertex vui s v).1) st := by
  intro l
  induction l with
  | nil => intro st _; rfl
  | cons t ts ih =>
    intro st hrt
    rw [List.foldl_cons]
    unfold cornersOf
    rw [List.flatMap_cons, List.foldl_append]
    have hstep : rvStep m vui st t
        = (add_render_vertex vui
            (add_render_vertex vui
              (add_render_vertex vui st (m.triangle_a.getD t 0)).1
              (m.triangle_b.getD t 0)).1
            (m.triangle_c.getD t 0)).1 := by
      rcases hrt t (List.mem_cons_self t ts) with h | h <;> simp [rvStep, h]
    rw [hstep]
    exact ih _ (fun x hx => hrt x (List.mem_cons_of_mem t hx))

/-- The free-slot scan over a span whose first cnt slots are occupied and
whose cnt-th slot is free returns position s + cnt. -/
theorem find_zero_spec (pos : List Nat) :
    ∀ (n s cnt : Nat), cnt < n → s + n ≤ pos.length →
    (∀ j, j < n → (pos.getD (s + j) 0 ≠ 0 ↔ j < cnt)) →
    (List.range' s n).find? (fun v => decide (pos.getD v 1 = 0)) = some (s + cnt) := by
  intro n
  induction n with
  | zero => intro s cnt h; omega
  | succ n ih =>
    intro s cnt hcnt hlen hfill
    have hsl : s < pos.length := by omega
    have hconv : pos.getD s 1 = pos.getD s 0 := by
      rw [List.getD_eq_getElem pos 1 hsl, List.getD_eq_getElem pos 0 hsl]
    rw [List.range'_succ]
    cases cnt with
    | zero =>
      have h0 : pos.getD (s + 0) 0 = 0 := by
        by_contra hne
        exact absurd ((hfill 0 (by omega)).mp hne) (by omega)
      rw [List.find?_cons_of_pos]
      · simp
      · simp only [decide_eq_true_eq, hconv]
        simpa using h0
    | succ c =>
      have hocc : pos.getD (s + 0) 0 ≠ 0 := (hfill 0 (by omega)).mpr (by omega)
      rw [List.find?_cons_of_neg]
      · have := ih (s + 1) c (by omega) (by omega) (fun j hj => by
          have := hfill (j + 1) (by omega)
          constructor
          · intro hne
            have harith : s + 1 + j = s + (j + 1) := by omega
            rw [harith] at hne
            have := this.mp hne
            omega
          · intro hjc
            have harith : s + 1 + j = s + (j + 1) := by omega
            rw [harith]
            exact this.mpr (by omega))
        rw [this]
        have harith : s + 1 + c = s + (c + 1) := by omega
        rw [harith]
      · simp only [decide_eq_true_eq, hconv]
        simpa using hocc

/-- findFreeSlot on a span [s, s + n) with the fill pattern above. -/
theorem findFreeSlot_spec (pos : List Nat) (s n cnt : Nat)
    (hcnt : cnt < n) (hlen : s + n ≤ pos.length)
    (hfill : ∀ j, j < n → (pos.getD (s + j) 0 ≠ 0 ↔ j < cnt)) :
    findFreeSlot pos s (s + n) = s + cnt := by
  unfold findFreeSlot
  have harith : s + n - s = n := by omega
  rw [harith, find_zero_spec pos n s cnt hcnt hlen hfill]

/-- getD after set at the written slot. -/
theorem getD_set_self (l : List Nat) (i a : Nat) (h : i < l.length) :
    (l.set i a).getD i 0 = a := by
  simp [List.getD_eq_getElem?_getD, List.getElem?_set_self h]

/-- getD after set at a different slot. -/
theorem getD_set_ne (l : List Nat) (i j a : Nat) (h : i ≠ j) :
    (l.set i a).getD j 0 = l.getD j 0 := by
  simp [List.getD_eq_getElem?_getD, List.getElem?_set_ne h]

/-- Invariant of the corner-emission fold: the stream-position array has
the fixed capacity, the running count equals the number of corners done,
and inside each vertex span exactly the first (count of that vertex among
the done corners) slots are non-zero. -/
def RVInv (counts : List Nat) (used cap : Nat) (done : List Nat)
    (st : RVState) : Prop :=
  st.vertex_stream_pos.length = cap ∧
  st.render_vertex_count = done.length ∧
  ∀ v, v < used → ∀ j, j < counts.getD v 0 →
    (st.vertex_stream_pos.getD ((counts.take v).sum + j) 0 ≠ 0 ↔
      j < done.count v)

/-- One add_render_vertex call preserves the invariant, appending its
corner to the done list. -/
theorem add_rv_step (counts vui : List Nat) (used cap : Nat)
    (hvui : ∀ v, v ≤ used → vui.getD v 0 = (counts.take v).sum)
    (hcap : (counts.take used).sum ≤ cap)
    (hclen : used < counts.length)
    (done : List Nat) (st : RVState) (v : Nat)
    (hv : v < used)
    (hroom : done.count v < counts.getD v 0)
    (hinv : RVInv counts used cap done st) :
    RVInv counts used cap (done ++ [v]) (add_render_vertex vui st v).1 := by
  obtain ⟨hlen, hrvc, hfill⟩ := hinv
  have hvc : v < counts.length := by omega
  have hvs : vui.getD v 0 = (counts.take v).sum := hvui v (by omega)
  have hspanEq : (counts.take (v + 1)).sum = (counts.take v).sum + counts.getD v 0 :=
    take_sum_succ_getD counts v hvc
  have hve : vui.getD (v + 1) 0 = (counts.take v).sum + counts.getD v 0 := by
    rw [hvui (v + 1) (by omega), hspanEq]
  have hspan_le : (counts.take (v + 1)).sum ≤ cap :=
    le_trans (take_sum_mono counts (v + 1) used (by omega)) hcap
  have hfind : findFreeSlot st.vertex_stream_pos (vui.getD v 0) (vui.getD (v + 1) 0)
      = (counts.take v).sum + done.count v := by
    rw [hvs, hve]
    exact findFreeSlot_spec st.vertex_stream_pos ((counts.take v).sum)
      (counts.getD v 0) (done.count v) hroom (by omega) (fun j hj => hfill v hv j hj)
  simp only [add_render_vertex]
  rw [hfind]
  refine ⟨by simp [hlen], by simp [hrvc], ?_⟩
  intro w hw j hj
  have hwc : w < counts.length := by omega
  by_cases hwv : w = v
  · subst hwv
    have hcnt : (done ++ [w]).count w = done.count w + 1 := by
      simp
    rw [hcnt]
    rcases Nat.lt_trichotomy j (done.count w) with hlt | heq | hgt
    · rw [getD_set_ne _ _ _ _ (by omega)]
      exact ⟨fun _ => by omega, fun _ => (hfill w hw j hj).mpr hlt⟩
    · subst heq
      rw [getD_set_self _ _ _ (by omega)]
      exact ⟨fun _ => by omega, fun _ => by omega⟩
    · rw [getD_set_ne _ _ _ _ (by omega)]
      constructor
      · intro hne
        have := (hfill w hw j hj).mp hne
        omega
      · intro h
        omega
  · have hcnt : (done ++ [v]).count w = done.count w := by
      have hvw : ¬(v = w) := fun h => hwv h.symm
      simp [List.count_append, List.count_cons, hvw]
    rw [hcnt]
    have hwspan : (counts.take (w + 1)).sum = (counts.take w).sum + counts.getD w 0 :=
      take_sum_succ_getD counts w hwc
    have hpne : (counts.take v).sum + done.count v ≠ (counts.take w).sum + j := by
      rcases Nat.lt_or_ge w v with hlt | hge
      · have := take_sum_mono counts (w + 1) v (by omega)
        omega
      · have hvw : v < w := by omega
        have := take_sum_mono counts (v + 1) w (by omega)
        omega
    rw [getD_set_ne _ _ _ _ hpne]
    exact hfill w hw j hj

/-- The initial render-vertex state satisfies the invariant with no
corners done. -/
theorem RVInv_init (counts : List Nat) (used cap : Nat)
    (hclen : used < counts.length)
    (hcap : (counts.take used).sum ≤ cap) :
    RVInv counts used cap [] ⟨List.replicate cap 0, 0⟩ := by
  refine ⟨by simp, rfl, ?_⟩
  intro v hv j hj
  have hvc : v < counts.length := by omega
  have hp : (counts.take v).sum + j < cap := by
    have h1 := take_sum_succ_getD counts v hvc
    have h2 := take_sum_mono counts (v + 1) used (by omega)
    omega
  constructor
  · intro hne
    exfalso
    apply hne
    rw [List.getD_eq_getElem _ 0 (by simpa using hp)]
    simp
  · intro h
    simp at h

/-- Folding add_render_vertex over any remaining corner list whose counts
fit in the spans preserves the invariant. -/
theorem corner_fold_inv (counts vui : List Nat) (used cap : Nat)
    (hvui : ∀ v, v ≤ used → vui.getD v 0 = (counts.take v).sum)
    (hcap : (counts.take used).sum ≤ cap)
    (hclen : used < counts.length) :
    ∀ (cs done : List Nat) (st : RVState),
    (∀ x ∈ cs, x < used) →
    (∀ x, done.count x + cs.count x ≤ counts.getD x 0) →
    RVInv counts used cap done st →
    RVInv counts used cap (done ++ cs)
      (cs.foldl (fun s v => (add_render_vertex vui s v).1) st) := by
  intro cs
  induction cs with
  | nil =>
    intro done st _ _ h
    simpa using h
  | cons v cs ih =>
    intro done st hx hcnt hinv
    have hv : v < used := hx v (List.mem_cons_self v cs)
    have hroom : done.count v < counts.getD v 0 := by
      have h1 := hcnt v
      have h2 : (v :: cs).count v = cs.count v + 1 := List.count_cons_self v cs
      omega
    have hstep := add_rv_step counts vui used cap hvui hcap hclen done st v hv hroom hinv
    have hrec := ih (done ++ [v]) ((add_render_vertex vui st v).1)
      (fun x h => hx x (List.mem_cons_of_mem v h))
      (fun x => by
        have h1 := hcnt x
        by_cases hxv : x = v
        · subst hxv
          have h2 : (x :: cs).count x = cs.count x + 1 := List.count_cons_self x cs
          have h3 : (done ++ [x]).count x = done.count x + 1 := by simp
          omega
        · have hvx : ¬(v = x) := fun h => hxv h.symm
          have h2 : (v :: cs).count x = cs.count x := by
            simp [List.count_cons, hvx]
          have h3 : (done ++ [v]).count x = done.count x := by
            simp [List.count_append, List.count_cons, hvx]
          omega)
      hstep
    rw [List.foldl_cons]
    have hassoc : done ++ [v] ++ cs = done ++ v :: cs := by
      simp
    rwa [hassoc] at hrec

/-- C4: for a well-formed mesh (corner indices below used_vertex_count)
all of whose surviving triangles have render type 0 or 1 — the only types
for which the loop emits render vertices — the sum over source vertices of
the vertex_unique_index span sizes equals render_vertex_count, and every
vertex_stream_pos slot is non-zero after the build (each emitted render
vertex is recorded in a free slot of its source vertex's span).  The
render-type restriction is the needed correction: a surviving triangle of
any other render type contributes three span slots but no render
vertices. -/
theorem C4_render_vertices (getInfo : Nat → Option MaterialInfo) (m : MUnlit)
    (imt : Bool)
    (hv : ∀ t, t < m.triangle_count →
      m.triangle_a.getD t 0 < m.used_vertex_count ∧
      m.triangle_b.getD t 0 < m.used_vertex_count ∧
      m.triangle_c.getD t 0 < m.used_vertex_count)
    (hrt : ∀ t ∈ survivors getInfo m,
      renderTypeOf m t = 0 ∨ renderTypeOf m t = 1) :
    (modelLitRV getInfo m imt).render_vertex_count
      = ((List.range m.used_vertex_count).map
          (fun v => (vertexUniqueIndex getInfo m).getD (v + 1) 0
            - (vertexUniqueIndex getInfo m).getD v 0)).sum ∧
    ∀ slot ∈ (modelLitRV getInfo m imt).vertex_stream_pos, slot ≠ 0 := by
  have hsurv_lt : ∀ t ∈ survivors getInfo m, t < m.triangle_count := by
    intro t ht
    unfold survivors at ht
    exact List.mem_range.mp (List.mem_filter.mp ht).1
  have hcorner_lt : ∀ x ∈ cornersOf m (survivors getInfo m),
      x < m.used_vertex_count := by
    intro x hx
    unfold cornersOf at hx
    obtain ⟨t, ht, hx2⟩ := List.mem_flatMap.mp hx
    have h3 := hv t (hsurv_lt t ht)
    simp only [List.mem_cons, List.mem_singleton] at hx2
    rcases hx2 with h | h | h
    · rw [h]; exact h3.1
    · rw [h]; exact h3.2.1
    · rcases h with h | h
      · rw [h]; exact h3.2.2
      · simp at h
  have hcounts_len : (vertexRefCounts m (survivors getInfo m)).length
      = m.used_vertex_count + 1 := by
    rw [vertexRefCounts_eq_foldl, foldl_incAt_length]
    simp
  have hcounts_getD : ∀ v, v < m.used_vertex_count + 1 →
      (vertexRefCounts m (survivors getInfo m)).getD v 0
        = (cornersOf m (survivors getInfo m)).count v := by
    intro v hvlt
    rw [vertexRefCounts_eq_foldl,
      foldl_incAt_getD _ _ v (by simpa using hvlt)]
    have hz : (List.replicate (m.used_vertex_count + 1) 0).getD v 0 = 0 := by
      rw [List.getD_eq_getElem _ 0 (by simpa using hvlt)]
      simp
    rw [hz, Nat.zero_add]
  have hvui : ∀ v, v ≤ m.used_vertex_count →
      (vertexUniqueIndex getInfo m).getD v 0
        = ((vertexRefCounts m (survivors getInfo m)).take v).sum := by
    intro v hvle
    unfold vertexUniqueIndex
    rw [prefixPassGo_getD _ 0 v (by omega)]
    simp
  have htot : ((vertexRefCounts m (survivors getInfo m)).take
        m.used_vertex_count).sum
      = (cornersOf m (survivors getInfo m)).length := by
    rw [take_sum_eq_range_map _ _ (by omega)]
    have hmapc : (List.range m.used_vertex_count).map
          (fun v => (vertexRefCounts m (survivors getInfo m)).getD v 0)
        = (List.range m.used_vertex_count).map
          (fun v => (cornersOf m (survivors getInfo m)).count v) :=
      List.map_congr_left
        (fun v hv2 => hcounts_getD v (by
          have := List.mem_range.mp hv2
          omega))
    rw [hmapc, sum_map_count m.used_vertex_count _ hcorner_lt]
  have hcapEq : (survivors getInfo m).length * 3
      = ((vertexRefCounts m (survivors getInfo m)).take
          m.used_vertex_count).sum := by
    rw [htot, cornersOf_length]
  have hperm := sortedTriangles_perm getInfo m imt
  have hcperm : (cornersOf m (sortedTriangles getInfo m imt)).Perm
      (cornersOf m (survivors getInfo m)) := by
    unfold cornersOf
    exact List.Perm.flatMap_right _ hperm
  have hsorted_rt : ∀ t ∈ sortedTriangles getInfo m imt,
      renderTypeOf m t = 0 ∨ renderTypeOf m t = 1 :=
    fun t ht => hrt t (hperm.mem_iff.mp ht)
  have hfold : modelLitRV getInfo m imt
      = (cornersOf m (sortedTriangles getInfo m imt)).foldl
          (fun s v => (add_render_vertex (vertexUniqueIndex getInfo m) s v).1)
          ⟨List.replicate ((survivors getInfo m).length * 3) 0, 0⟩ := by
    unfold modelLitRV buildRenderVertices
    exact buildRV_eq_corner_fold m _ _ _ hsorted_rt
  have hinit := RVInv_init (vertexRefCounts m (survivors getInfo m))
    m.used_vertex_count ((survivors getInfo m).length * 3)
    (by omega) (le_of_eq hcapEq.symm)
  have hfinal := corner_fold_inv (vertexRefCounts m (survivors getInfo m))
    (vertexUniqueIndex getInfo m) m.used_vertex_count
    ((survivors getInfo m).length * 3) hvui (le_of_eq hcapEq.symm) (by omega)
    (cornersOf m (sortedTriangles getInfo m imt)) [] _
    (fun x hx => hcorner_lt x (hcperm.mem_iff.mp hx))
    (fun x => by
      simp only [List.count_nil, Nat.zero_add]
      have hcp : (cornersOf m (sortedTriangles getInfo m imt)).count x
          = (cornersOf m (survivors getInfo m)).count x := hcperm.count_eq x
      rw [hcp]
      by_cases hxu : x < m.used_vertex_count + 1
      · rw [hcounts_getD x hxu]
      · have hnm : x ∉ cornersOf m (survivors getInfo m) := fun hmem => by
          have := hcorner_lt x hmem
          omega
        rw [List.count_eq_zero.mpr hnm]
        omega)
    hinit
  obtain ⟨hlenf, hrvcf, hfillf⟩ := hfinal
  simp only [List.nil_append] at hlenf hrvcf hfillf
  rw [hfold]
  constructor
  · rw [hrvcf]
    have h1 : (cornersOf m (sortedTriangles getInfo m imt)).length
        = (cornersOf m (survivors getInfo m)).length := hcperm.length_eq
    have h2 : (List.range m.used_vertex_count).map
          (fun v => (vertexUniqueIndex getInfo m).getD (v + 1) 0
            - (vertexUniqueIndex getInfo m).getD v 0)
        = (List.range m.used_vertex_count).map
          (fun v => (vertexRefCounts m (survivors getInfo m)).getD v 0) := by
      apply List.map_congr_left
      intro v hv2
      have hvlt : v < m.used_vertex_count := List.mem_range.mp hv2
      rw [hvui v (by omega), hvui (v + 1) (by omega),
        take_sum_succ_getD _ v (by omega)]
      omega
    rw [h1, h2, ← take_sum_eq_range_map _ _ (by omega), htot]
  · intro slot hslot
    obtain ⟨p, hp, hpe⟩ := List.mem_iff_getElem.mp hslot
    have hpcap : p < ((vertexRefCounts m (survivors getInfo m)).take
        m.used_vertex_count).sum := by
      have := hlenf
      omega
    obtain ⟨v, hvlt, hle, hlt⟩ :=
      exists_span (vertexRefCounts m (survivors getInfo m))
        m.used_vertex_count p hpcap
    have hspanEq := take_sum_succ_getD (vertexRefCounts m (survivors getInfo m))
      v (by omega)
    have hj : p - ((vertexRefCounts m (survivors getInfo m)).take v).sum
        < (vertexRefCounts m (survivors getInfo m)).getD v 0 := by
      omega
    have hiff := hfillf v hvlt
      (p - ((vertexRefCounts m (survivors getInfo m)).take v).sum) hj
    have harith : ((vertexRefCounts m (survivors getInfo m)).take v).sum
        + (p - ((vertexRefCounts m (survivors getInfo m)).take v).sum) = p := by
      omega
    rw [harith] at hiff
    have hcfull : (cornersOf m (sortedTriangles getInfo m imt)).count v
        = (vertexRefCounts m (survivors getInfo m)).getD v 0 := by
      rw [hcperm.count_eq v, ← hcounts_getD v (by omega)]
    have hnz := hiff.mpr (by rw [hcfull]; exact hj)
    rw [List.getD_eq_getElem _ 0 hp] at hnz
    rw [← hpe]
    exact hnz

/-- Witness mesh for C4: one triangle of render type 0 (absent array),
corners 0, 1, 2, three used vertices. -/
def c4wM : MUnlit :=
  ⟨1, 0, 3, [0], [1], [2], none, none, none, none, none, none⟩

/-- Witness for C4 at a concrete mesh: three render vertices are emitted,
matching the three span slots, and every stream-position slot is
filled. -/
theorem C4_render_vertices_witness :
    (modelLitRV (fun _ => none) c4wM false).render_vertex_count = 3 ∧
    ((modelLitRV (fun _ => none) c4wM false).render_vertex_count
      = ((List.range c4wM.used_vertex_count).map
          (fun v => (vertexUniqueIndex (fun _ => none) c4wM).getD (v + 1) 0
            - (vertexUniqueIndex (fun _ => none) c4wM).getD v 0)).sum ∧
    ∀ slot ∈ (modelLitRV (fun _ => none) c4wM false).vertex_stream_pos,
      slot ≠ 0) :=
  ⟨by decide, C4_render_vertices (fun _ => none) c4wM false (by decide) (by decide)⟩

/-- Counterexample mesh for the unconditional C4 claim: a single
surviving triangle with render type 3. -/
def c4cexM : MUnlit :=
  ⟨1, 0, 3, [0], [1], [2], some [3], none, none, none, none, none⟩

/-- A surviving render-type-3 triangle still gets its three corners
counted into the vertex_unique_index spans, but the emission loop only
emits for types 0 and 1: the span sizes sum to 3 while
render_vertex_count is 0. -/
theorem C4_counterexample :
    (modelLitRV (fun _ => none) c4cexM false).render_vertex_count = 0 ∧
    ((List.range c4cexM.used_vertex_count).map
        (fun v => (vertexUniqueIndex (fun _ => none) c4cexM).getD (v + 1) 0
          - (vertexUniqueIndex (fun _ => none) c4cexM).getD v 0)).sum = 3 ∧
    (0 : Nat) ≠ 3 := by
  decide
